import Mathlib

/-!
Verification of the forecast-accuracy metric library
(src/Project/DatasetsForecast.py) against its natural-language
specification.

The numeric domain models IEEE double values exactly where the claims
need it: finite values are arbitrary rationals (none of the claims
depends on rounding), extended with plus infinity, minus infinity and
NaN, with the usual IEEE propagation rules for arithmetic and the usual
false-on-NaN comparison rules.  Arrays are modelled at ranks 0, 1 and 2
(type Arr), which covers every shape the claims exercise; numpy
operations that can raise are modelled as Except-valued functions, one
constructor of PyError per Python exception class that can occur.
-/

/-- IEEE-style extended value: a finite rational, plus infinity, minus
infinity, or NaN. -/
inductive EFloat where
  | fin (q : ℚ)
  | pinf
  | ninf
  | nan
deriving DecidableEq, Repr

namespace EFloat

/-- Test for NaN, mirroring np.isnan. -/
def isNaN : EFloat → Bool
  | nan => true
  | _ => false

/-- IEEE addition: NaN absorbs, opposite infinities give NaN. -/
def add : EFloat → EFloat → EFloat
  | nan, _ => nan
  | _, nan => nan
  | pinf, ninf => nan
  | ninf, pinf => nan
  | pinf, _ => pinf
  | _, pinf => pinf
  | ninf, _ => ninf
  | _, ninf => ninf
  | fin a, fin b => fin (a + b)

/-- IEEE negation. -/
def neg : EFloat → EFloat
  | nan => nan
  | pinf => ninf
  | ninf => pinf
  | fin a => fin (-a)

/-- IEEE subtraction. -/
def sub (a b : EFloat) : EFloat := a.add b.neg

/-- IEEE absolute value, mirroring np.abs. -/
def abs : EFloat → EFloat
  | nan => nan
  | pinf => pinf
  | ninf => pinf
  | fin a => fin |a|

/-- IEEE multiplication: NaN absorbs, infinity times zero gives NaN. -/
def mul : EFloat → EFloat → EFloat
  | nan, _ => nan
  | _, nan => nan
  | pinf, pinf => pinf
  | pinf, ninf => ninf
  | ninf, pinf => ninf
  | ninf, ninf => pinf
  | pinf, fin b => if b = 0 then nan else if 0 < b then pinf else ninf
  | fin a, pinf => if a = 0 then nan else if 0 < a then pinf else ninf
  | ninf, fin b => if b = 0 then nan else if 0 < b then ninf else pinf
  | fin a, ninf => if a = 0 then nan else if 0 < a then ninf else pinf
  | fin a, fin b => fin (a * b)

/-- IEEE division: 0/0 and inf/inf give NaN, a nonzero finite numerator
over zero gives a signed infinity (numpy emits a warning, no exception),
a finite numerator over an infinity gives 0. -/
def div : EFloat → EFloat → EFloat
  | nan, _ => nan
  | _, nan => nan
  | pinf, pinf => nan
  | pinf, ninf => nan
  | ninf, pinf => nan
  | ninf, ninf => nan
  | pinf, fin b => if 0 ≤ b then pinf else ninf
  | ninf, fin b => if 0 ≤ b then ninf else pinf
  | fin _, pinf => fin 0
  | fin _, ninf => fin 0
  | fin a, fin b =>
      if b = 0 then (if a = 0 then nan else if 0 < a then pinf else ninf)
      else fin (a / b)

/-- IEEE equality test (numpy ==): NaN compares unequal to everything,
itself included. -/
def beq : EFloat → EFloat → Bool
  | nan, _ => false
  | _, nan => false
  | pinf, pinf => true
  | ninf, ninf => true
  | fin a, fin b => decide (a = b)
  | _, _ => false

/-- IEEE inequality test (numpy !=). -/
def bne (a b : EFloat) : Bool := !(a.beq b)

/-- IEEE less-or-equal test: any comparison involving NaN is false. -/
def le : EFloat → EFloat → Bool
  | nan, _ => false
  | _, nan => false
  | ninf, _ => true
  | _, pinf => true
  | pinf, _ => false
  | _, ninf => false
  | fin a, fin b => decide (a ≤ b)

/-- IEEE strict less-than test: any comparison involving NaN is false. -/
def lt (a b : EFloat) : Bool := a.le b && !(a.beq b)

/-- Elementwise maximum, mirroring np.maximum: NaN propagates. -/
def max : EFloat → EFloat → EFloat
  | nan, _ => nan
  | _, nan => nan
  | pinf, _ => pinf
  | _, pinf => pinf
  | ninf, b => b
  | a, ninf => a
  | fin a, fin b => fin (Max.max a b)

end EFloat

/-- One constructor per Python exception class the library can raise. -/
inductive PyError where
  | assertionError (msg : String)
  | zeroDivisionError
  | axisError
  | typeError
deriving DecidableEq, Repr

/-- Sum of a list of floats (np.sum of the flattened data). -/
def listSum (l : List EFloat) : EFloat := l.foldr EFloat.add (.fin 0)

/-- Plain mean of a flat list, as ndarray.mean over one slice: the sum
divided (IEEE division) by the length, so the empty mean is NaN. -/
def mean1 (l : List EFloat) : EFloat :=
  (listSum l).div (.fin (l.length : ℚ))

/-- NaN-aware mean of a flat list, as np.nanmean over one slice: NaN
entries are replaced by 0 in the sum and the divisor counts only the
non-NaN entries, so an all-NaN (or empty) slice yields NaN. -/
def nanmean1 (l : List EFloat) : EFloat :=
  (listSum (l.map (fun x => if x.isNaN then .fin 0 else x))).div
    (.fin (((l.filter (fun x => !x.isNaN)).length : ℚ)))

/-- Weighted mean of one slice, as np.average computes it: the scale is
the sum of the weights, a zero scale raises ZeroDivisionError, otherwise
the result is the weighted sum divided by the scale. -/
def avg1 (vs ws : List EFloat) : Except PyError EFloat :=
  let scl := listSum ws
  if scl.beq (.fin 0) then .error .zeroDivisionError
  else .ok ((listSum (List.zipWith EFloat.mul vs ws)).div scl)

/-- Collects a list of per-slice Except results, propagating the first
error (numpy raises once any slice scale is degenerate). -/
def exceptList : List (Except PyError EFloat) → Except PyError (List EFloat)
  | [] => .ok []
  | .error e :: _ => .error e
  | .ok x :: rest => (exceptList rest).map (fun l => x :: l)

/-- Column decomposition of a rectangular row-major matrix, used to model
reductions along numpy axis 0. -/
def transposeR : List (List EFloat) → List (List EFloat)
  | [] => []
  | [r] => r.map (fun x => [x])
  | r :: s :: rs => List.zipWith (fun x c => x :: c) r (transposeR (s :: rs))

/-- A numpy array of rank 0, 1 or 2 (row-major). -/
inductive Arr where
  | scl (x : EFloat)
  | vec (xs : List EFloat)
  | mat (xss : List (List EFloat))
deriving DecidableEq, Repr

namespace Arr

/-- Row-major flattening of the data. -/
def flatten : Arr → List EFloat
  | scl x => [x]
  | vec xs => xs
  | mat xss => xss.flatten

/-- The numpy shape tuple. -/
def shape : Arr → List Nat
  | scl _ => []
  | vec xs => [xs.length]
  | mat xss => [xss.length, (xss.headD []).length]

/-- Elementwise unary operation. -/
def map (f : EFloat → EFloat) : Arr → Arr
  | scl x => scl (f x)
  | vec xs => vec (xs.map f)
  | mat xss => mat (xss.map (fun r => r.map f))

/-- Elementwise binary operation with numpy scalar and row broadcasting. -/
def bop (f : EFloat → EFloat → EFloat) : Arr → Arr → Arr
  | scl a, scl b => scl (f a b)
  | scl a, vec ys => vec (ys.map (fun y => f a y))
  | vec xs, scl b => vec (xs.map (fun x => f x b))
  | vec xs, vec ys => vec (List.zipWith f xs ys)
  | scl a, mat yss => mat (yss.map (fun r => r.map (fun y => f a y)))
  | mat xss, scl b => mat (xss.map (fun r => r.map (fun x => f x b)))
  | mat xss, mat yss => mat (List.zipWith (List.zipWith f) xss yss)
  | vec xs, mat yss => mat (yss.map (fun r => List.zipWith f xs r))
  | mat xss, vec ys => mat (xss.map (fun r => List.zipWith f r ys))

/-- An axis argument valid for a one-dimensional array. -/
def axOk1 : Option Nat → Bool
  | none => true
  | some 0 => true
  | some _ => false

/-- np.nanmean over an array with an optional integer axis. -/
def npNanmean (a : Arr) (axis : Option Nat) : Except PyError Arr :=
  match a, axis with
  | scl x, none => .ok (scl (nanmean1 [x]))
  | scl _, some _ => .error .axisError
  | vec xs, ax => if axOk1 ax then .ok (scl (nanmean1 xs)) else .error .axisError
  | mat xss, none => .ok (scl (nanmean1 xss.flatten))
  | mat xss, some 0 => .ok (vec ((transposeR xss).map nanmean1))
  | mat xss, some 1 => .ok (vec (xss.map nanmean1))
  | mat _, some _ => .error .axisError

/-- np.average over an array with optional same-shaped weights and an
optional integer axis.  Without weights it is the plain mean (NaN
propagates); with weights every slice is a weighted mean and any slice
whose weights sum to zero raises ZeroDivisionError; weights of a shape
different from the values raise TypeError. -/
def npAverage (a : Arr) (w : Option Arr) (axis : Option Nat) : Except PyError Arr :=
  match a, w, axis with
  | scl x, none, none => .ok (scl (mean1 [x]))
  | vec xs, none, ax =>
      if axOk1 ax then .ok (scl (mean1 xs)) else .error .axisError
  | vec xs, some (vec ws), ax =>
      if ws.length = xs.length then
        if axOk1 ax then (avg1 xs ws).map scl else .error .axisError
      else .error .typeError
  | mat xss, none, none => .ok (scl (mean1 xss.flatten))
  | mat xss, none, some 0 => .ok (vec ((transposeR xss).map mean1))
  | mat xss, none, some 1 => .ok (vec (xss.map mean1))
  | mat _, none, some _ => .error .axisError
  | mat xss, some (mat wss), none =>
      if (mat wss).shape = (mat xss).shape then (avg1 xss.flatten wss.flatten).map scl
      else .error .typeError
  | mat xss, some (mat wss), some 0 =>
      if (mat wss).shape = (mat xss).shape then
        (exceptList (List.zipWith avg1 (transposeR xss) (transposeR wss))).map vec
      else .error .typeError
  | mat xss, some (mat wss), some 1 =>
      if (mat wss).shape = (mat xss).shape then
        (exceptList (List.zipWith avg1 xss wss)).map vec
      else .error .typeError
  | mat _, some (mat _), some _ => .error .axisError
  | _, _, _ => .error .typeError

end Arr

/-- Translation of _divide_no_nan: elementwise division followed by the
two in-place masked assignments of the source, first zeroing the
positions that compare unequal to themselves (NaN), then the positions
that compare equal to float inf (plus infinity only). -/
def _divide_no_nan (a b : Arr) : Arr :=
  let dv := Arr.bop EFloat.div a b
  let dv1 := dv.map (fun x => if x.bne x then .fin 0 else x)
  dv1.map (fun x => if x.beq .pinf then .fin 0 else x)

/-- The f-string of the shape-mismatch assertion in _metric_protections. -/
def wrongDimMsg (wshape yshape : List Nat) : String :=
  "Wrong weight dimension weights.shape " ++ toString wshape ++
    ", y.shape " ++ toString yshape

/-- Translation of _metric_protections: with weights present, assert that
their sum is strictly positive, then assert that their shape equals the
shape of y; each failed assert raises AssertionError with the source's
message. -/
def _metric_protections (y y_hat : Arr) (weights : Option Arr) : Except PyError Unit :=
  match weights with
  | none => .ok ()
  | some w =>
      if (EFloat.fin 0).lt (listSum w.flatten) then
        if w.shape = y.shape then .ok ()
        else .error (.assertionError (wrongDimMsg w.shape y.shape))
      else .error (.assertionError ("Sum of weights cannot be 0"))

/-- Translation of mae: after the protections, the absolute error; with
weights the source indexes both the error and the weights by the boolean
mask of non-NaN error positions (which flattens to one dimension) and
calls np.average on the flattened pair, otherwise np.nanmean. -/
def mae (y y_hat : Arr) (weights : Option Arr) (axis : Option Nat) : Except PyError Arr :=
  match _metric_protections y y_hat weights with
  | .error e => .error e
  | .ok _ =>
    let delta_y := Arr.bop (fun a b => (a.sub b).abs) y y_hat
    match weights with
    | some w =>
        let pairs := (delta_y.flatten.zip w.flatten).filter (fun p => !p.1.isNaN)
        Arr.npAverage (.vec (pairs.map (fun p => p.1)))
          (some (.vec (pairs.map (fun p => p.2)))) axis
    | none => Arr.npNanmean delta_y axis

/-- Translation of mse: identical to mae with the squared error. -/
def mse (y y_hat : Arr) (weights : Option Arr) (axis : Option Nat) : Except PyError Arr :=
  match _metric_protections y y_hat weights with
  | .error e => .error e
  | .ok _ =>
    let delta_y := Arr.bop (fun a b => (a.sub b).mul (a.sub b)) y y_hat
    match weights with
    | some w =>
        let pairs := (delta_y.flatten.zip w.flatten).filter (fun p => !p.1.isNaN)
        Arr.npAverage (.vec (pairs.map (fun p => p.1)))
          (some (.vec (pairs.map (fun p => p.2)))) axis
    | none => Arr.npNanmean delta_y axis

/-- Rational stand-in for the correctly rounded np.sqrt on finite
nonnegative arguments: exact whenever numerator and denominator are
perfect squares (the only finite values any claim evaluates it at),
an under-approximation otherwise. -/
def ratSqrt (q : ℚ) : ℚ := (Nat.sqrt q.num.natAbs : ℚ) / (Nat.sqrt q.den : ℚ)

/-- np.sqrt on one element: NaN on NaN and on negative arguments
(minus infinity included), plus infinity on plus infinity. -/
def fsqrtElt : EFloat → EFloat
  | .nan => .nan
  | .pinf => .pinf
  | .ninf => .nan
  | .fin q => if q < 0 then .nan else .fin (ratSqrt q)

/-- Translation of rmse: np.sqrt applied elementwise to the mse result.  -/
def rmse (y y_hat : Arr) (weights : Option Arr) (axis : Option Nat) : Except PyError Arr :=
  (mse y y_hat weights axis).map (Arr.map fsqrtElt)

/-- Translation of mape: safe division of the absolute error by the
absolute target, then a straight np.average (no NaN filtering) and a
multiplication by 100. -/
def mape (y y_hat : Arr) (weights : Option Arr) (axis : Option Nat) : Except PyError Arr :=
  match _metric_protections y y_hat weights with
  | .error e => .error e
  | .ok _ =>
    let delta_y := Arr.bop (fun a b => (a.sub b).abs) y y_hat
    let scale := y.map EFloat.abs
    let m := _divide_no_nan delta_y scale
    match Arr.npAverage m weights axis with
    | .error e => .error e
    | .ok r => .ok (r.map (fun x => (EFloat.fin 100).mul x))

/-- Translation of smape: safe division of the absolute error by the sum
of absolute values, a straight np.average, a multiplication by 200, and
the source's assert that every returned entry compares less-or-equal
to 200 (false for NaN), raising AssertionError otherwise. -/
def smape (y y_hat : Arr) (weights : Option Arr) (axis : Option Nat) : Except PyError Arr :=
  match _metric_protections y y_hat weights with
  | .error e => .error e
  | .ok _ =>
    let delta_y := Arr.bop (fun a b => (a.sub b).abs) y y_hat
    let scale := Arr.bop EFloat.add (y.map EFloat.abs) (y_hat.map EFloat.abs)
    let m := _divide_no_nan delta_y scale
    match Arr.npAverage m weights axis with
    | .error e => .error e
    | .ok r =>
        let s := r.map (fun x => (EFloat.fin 200).mul x)
        if s.flatten.all (fun x => x.le (.fin 200)) then .ok s
        else .error (.assertionError ("SMAPE should be lower than 200"))

/-- Translation of mase: no protections call; the numerator is
np.average of the absolute error with the given weights, the scale is
the unweighted np.average of the absolute seasonal differences of
y_train (Python slicing with :-s gives the empty list at s = 0), and the
result is the elementwise IEEE quotient. -/
def mase (y y_hat : Arr) (y_train : List EFloat) (seasonality : Nat)
    (weights : Option Arr) (axis : Option Nat) : Except PyError Arr :=
  let delta_y := Arr.bop (fun a b => (a.sub b).abs) y y_hat
  match Arr.npAverage delta_y weights axis with
  | .error e => .error e
  | .ok num =>
    let head := if seasonality = 0 then [] else y_train.take (y_train.length - seasonality)
    let scale := List.zipWith (fun a b => (a.sub b).abs) head (y_train.drop seasonality)
    match Arr.npAverage (.vec scale) none axis with
    | .error e => .error e
    | .ok den => .ok (Arr.bop EFloat.div num den)

/-- Translation of rmae: the elementwise IEEE quotient of two mae calls. -/
def rmae (y y_hat1 y_hat2 : Arr) (weights : Option Arr) (axis : Option Nat) :
    Except PyError Arr :=
  match mae y y_hat1 weights axis with
  | .error e => .error e
  | .ok numerator =>
    match mae y y_hat2 weights axis with
    | .error e => .error e
    | .ok denominator => .ok (Arr.bop EFloat.div numerator denominator)

/-- Translation of quantile_loss: pinball loss elementwise, then the same
masked weighted average (flattening) or np.nanmean as mae. -/
def quantile_loss (y y_hat : Arr) (q : ℚ) (weights : Option Arr) (axis : Option Nat) :
    Except PyError Arr :=
  match _metric_protections y y_hat weights with
  | .error e => .error e
  | .ok _ =>
    let delta_y := Arr.bop EFloat.sub y y_hat
    let loss := delta_y.map
      (fun d => EFloat.max ((EFloat.fin q).mul d) ((EFloat.fin (q - 1)).mul d))
    match weights with
    | some w =>
        let pairs := (loss.flatten.zip w.flatten).filter (fun p => !p.1.isNaN)
        Arr.npAverage (.vec (pairs.map (fun p => p.1)))
          (some (.vec (pairs.map (fun p => p.2)))) axis
    | none => Arr.npNanmean loss axis

/-- Translation of mqloss for one-dimensional y (y_hat carries the
trailing quantile dimension): omitted weights become np.ones(y.shape),
protections run against y, the error broadcasts y against each quantile
slice, the weights are repeated across the quantile dimension, and a
straight np.average (no NaN filtering) reduces. -/
def mqloss (y : List EFloat) (y_hat : List (List EFloat)) (quantiles : List ℚ)
    (weights : Option (List EFloat)) (axis : Option Nat) : Except PyError Arr :=
  let w := weights.getD (List.replicate y.length (EFloat.fin 1))
  match _metric_protections (.vec y) (.mat y_hat) (some (.vec w)) with
  | .error e => .error e
  | .ok _ =>
    let n_q := quantiles.length
    let err := List.zipWith (fun yi row => row.map (fun h => yi.sub h)) y y_hat
    let loss := err.map (fun row => List.zipWith
      (fun q e => EFloat.max ((EFloat.fin q).mul e) ((EFloat.fin (q - 1)).mul e))
      quantiles row)
    let wrep := w.map (fun wi => List.replicate n_q wi)
    Arr.npAverage (.mat loss) (some (.mat wrep)) axis

/-- np.finfo(float).eps, the double-precision machine epsilon. -/
def machineEps : ℚ := 1 / 2 ^ 52

/-- Translation of scaled_crps: two times the mqloss result times the
element count of y (np.sum of np.ones(y.shape)), divided by the sum of
absolute observations plus machine epsilon, elementwise on the
(possibly reduced-rank) mqloss result. -/
def scaled_crps (y : List EFloat) (y_hat : List (List EFloat)) (quantiles : List ℚ)
    (weights : Option (List EFloat)) (axis : Option Nat) : Except PyError Arr :=
  let eps := machineEps
  let norm := listSum (y.map EFloat.abs)
  match mqloss y y_hat quantiles weights axis with
  | .error e => .error e
  | .ok loss =>
      .ok (loss.map (fun l =>
        (((EFloat.fin 2).mul l).mul (EFloat.fin (y.length : ℚ))).div
          (norm.add (.fin eps))))

/-- Translation of coverage: 100 times the full-array mean of the
indicator of y_hat_lo less-or-equal y less-or-equal y_hat_hi (both
comparisons false on NaN); the mean of an empty array is NaN. -/
def coverage (y y_hat_lo y_hat_hi : Arr) : EFloat :=
  let ind := List.zipWith
    (fun yi p => if p.1.le yi && yi.le p.2 then EFloat.fin 1 else EFloat.fin 0)
    y.flatten (y_hat_lo.flatten.zip y_hat_hi.flatten)
  (EFloat.fin 100).mul (mean1 ind)

/-- Translation of calibration: the unscaled full-array mean of the
indicator of y less-or-equal y_hat_hi (false on NaN). -/
def calibration (y y_hat_hi : Arr) : EFloat :=
  mean1 (List.zipWith
    (fun yi hi => if yi.le hi then EFloat.fin 1 else EFloat.fin 0)
    y.flatten y_hat_hi.flatten)

/-- One element of _divide_no_nan: the quotient with the source's two
masks applied in order (self-inequality, then equality with plus
infinity). -/
def dnnElt (x y : EFloat) : EFloat :=
  let d := x.div y
  if d.bne d then .fin 0 else if d.beq .pinf then .fin 0 else d

/-- One element of the mape transform before averaging. -/
def mapeElt (a b : EFloat) : EFloat := dnnElt ((a.sub b).abs) a.abs

/-- One element of the smape transform before averaging. -/
def smapeElt (a b : EFloat) : EFloat :=
  dnnElt ((a.sub b).abs) ((a.abs).add (b.abs))

/-- The pinball-loss transform of one error element at level q. -/
def pinballElt (q : ℚ) (d : EFloat) : EFloat :=
  EFloat.max ((EFloat.fin q).mul d) ((EFloat.fin (q - 1)).mul d)

/-- The AssertionError message _metric_protections produces for a given
target array and weight array (the sum assert fires first). -/
def protErrMsg (y w : Arr) : String :=
  if (EFloat.fin 0).lt (listSum w.flatten) then wrongDimMsg w.shape y.shape
  else "Sum of weights cannot be 0"

/-- The indicator element used by coverage. -/
def covElt (lo yi hi : EFloat) : EFloat :=
  if lo.le yi && yi.le hi then EFloat.fin 1 else EFloat.fin 0

/-- The indicator element used by calibration. -/
def calElt (yi hi : EFloat) : EFloat :=
  if yi.le hi then EFloat.fin 1 else EFloat.fin 0

/-! ## Basic facts about the IEEE value model -/

namespace EFloat

theorem bne_self_eq_isNaN (x : EFloat) : x.bne x = x.isNaN := by
  cases x <;> simp [bne, beq, isNaN]

theorem add_nan_right (x : EFloat) : x.add nan = nan := by
  cases x <;> rfl

theorem nan_add (x : EFloat) : EFloat.nan.add x = nan := by
  cases x <;> rfl

theorem add_fin_zero_left (x : EFloat) : (fin 0).add x = x := by
  cases x <;> simp [add]

theorem mul_fin_one_right (x : EFloat) : x.mul (fin 1) = x := by
  cases x <;> simp [mul]

theorem sub_nan_right (x : EFloat) : x.sub nan = nan := by
  cases x <;> rfl

theorem nan_sub (x : EFloat) : EFloat.nan.sub x = nan := by
  cases x <;> rfl

theorem div_fin_zero_cases (x : EFloat) :
    x.div (fin 0) = pinf ∨ x.div (fin 0) = ninf ∨ (x.div (fin 0)).isNaN = true := by
  cases x with
  | fin a =>
      by_cases h : a = 0
      · subst h; simp [div, isNaN]
      · rcases lt_or_gt_of_ne h with h1 | h1
        · right; left; simp [div, h, not_lt_of_lt h1]
        · left; simp [div, h, h1]
  | pinf => left; simp [div]
  | ninf => right; left; simp [div]
  | nan => right; right; rfl

theorem nan_div (x : EFloat) : EFloat.nan.div x = nan := by
  cases x <;> rfl

theorem div_nan_right (x : EFloat) : x.div nan = nan := by
  cases x <;> rfl

/-- The absolute value of any float is NaN, plus infinity, or a
nonnegative finite value. -/
theorem abs_cases' (x : EFloat) :
    x.abs = nan ∨ x.abs = pinf ∨ ∃ p, x.abs = fin p ∧ 0 ≤ p := by
  cases x with
  | fin q => right; right; exact ⟨|q|, rfl, abs_nonneg q⟩
  | pinf => right; left; rfl
  | ninf => right; left; rfl
  | nan => left; rfl

end EFloat

/-! ## Facts about sums and means of flat slices -/

theorem listSum_nil : listSum [] = .fin 0 := rfl

theorem listSum_cons (x : EFloat) (l : List EFloat) :
    listSum (x :: l) = x.add (listSum l) := rfl

/-- A NaN anywhere in a slice makes the whole sum NaN. -/
theorem listSum_of_nan_mem {l : List EFloat} (h : EFloat.nan ∈ l) :
    listSum l = .nan := by
  induction l with
  | nil => simp at h
  | cons x xs ih =>
      rcases List.mem_cons.mp h with h1 | h1
      · subst h1
        rw [listSum_cons, EFloat.nan_add]
      · rw [listSum_cons, ih h1, EFloat.add_nan_right]

/-- Summing the all-ones weight vector counts the elements. -/
theorem listSum_replicate_one (n : Nat) :
    listSum (List.replicate n (.fin 1)) = .fin (n : ℚ) := by
  induction n with
  | zero => rfl
  | succ k ih =>
      rw [List.replicate_succ, listSum_cons, ih]
      simp [EFloat.add]
      ring

/-- A sum of nonnegative finite values is a nonnegative finite value. -/
theorem listSum_fin_nonneg {l : List EFloat}
    (h : ∀ x ∈ l, ∃ q, x = .fin q ∧ 0 ≤ q) :
    ∃ S, listSum l = .fin S ∧ 0 ≤ S := by
  induction l with
  | nil => exact ⟨0, rfl, le_refl 0⟩
  | cons x xs ih =>
      obtain ⟨q, hx, hq⟩ := h x (List.mem_cons_self x xs)
      obtain ⟨S, hS, hS0⟩ := ih (fun y hy => h y (List.mem_cons_of_mem x hy))
      refine ⟨q + S, ?_, by positivity⟩
      rw [listSum_cons, hx, hS]; rfl

/-- A sum of finite values each between 0 and 1 is finite, nonnegative
and at most the number of summands. -/
theorem listSum_fin_le_card {l : List EFloat}
    (h : ∀ x ∈ l, ∃ q, x = .fin q ∧ 0 ≤ q ∧ q ≤ 1) :
    ∃ S, listSum l = .fin S ∧ 0 ≤ S ∧ S ≤ (l.length : ℚ) := by
  induction l with
  | nil => exact ⟨0, rfl, le_refl 0, by simp⟩
  | cons x xs ih =>
      obtain ⟨q, hx, hq0, hq1⟩ := h x (List.mem_cons_self x xs)
      obtain ⟨S, hS, hS0, hS1⟩ := ih (fun y hy => h y (List.mem_cons_of_mem x hy))
      refine ⟨q + S, ?_, by positivity, ?_⟩
      · rw [listSum_cons, hx, hS]; rfl
      · simp only [List.length_cons]
        push_cast
        linarith

/-- The weighted sum of values in the unit interval against nonnegative
finite weights is a finite value between 0 and the weight sum. -/
theorem listSum_zipWith_mul_bound :
    ∀ (vs ws : List EFloat),
      (∀ x ∈ vs, ∃ q, x = .fin q ∧ 0 ≤ q ∧ q ≤ 1) →
      (∀ x ∈ ws, ∃ q, x = .fin q ∧ 0 ≤ q) →
      ∃ S W, listSum (List.zipWith EFloat.mul vs ws) = .fin S ∧
        listSum ws = .fin W ∧ 0 ≤ S ∧ S ≤ W := by
  intro vs
  induction vs with
  | nil =>
      intro ws _ hw
      obtain ⟨W, hW, hW0⟩ := listSum_fin_nonneg hw
      exact ⟨0, W, rfl, hW, le_refl 0, hW0⟩
  | cons v vs ih =>
      intro ws hv hw
      cases ws with
      | nil => exact ⟨0, 0, rfl, rfl, le_refl 0, le_refl 0⟩
      | cons w ws =>
          obtain ⟨qv, hxv, hv0, hv1⟩ := hv v (List.mem_cons_self v vs)
          obtain ⟨qw, hxw, hw0⟩ := hw w (List.mem_cons_self w ws)
          obtain ⟨S, W, hS, hW, hS0, hSW⟩ :=
            ih ws (fun y hy => hv y (List.mem_cons_of_mem v hy))
              (fun y hy => hw y (List.mem_cons_of_mem w hy))
          refine ⟨qv * qw + S, qw + W, ?_, ?_, ?_, ?_⟩
          · rw [List.zipWith_cons_cons, listSum_cons, hS, hxv, hxw]; rfl
          · rw [listSum_cons, hW, hxw]; rfl
          · positivity
          · have : qv * qw ≤ qw := by nlinarith
            linarith

/-- np.nanmean of a slice is the plain mean of its non-NaN entries. -/
theorem nanmean1_eq_mean1_filter (l : List EFloat) :
    nanmean1 l = mean1 (l.filter (fun x => !x.isNaN)) := by
  unfold nanmean1 mean1
  congr 1
  induction l with
  | nil => rfl
  | cons x xs ih =>
      by_cases hx : x.isNaN = true
      · rw [List.map_cons, if_pos hx, listSum_cons, EFloat.add_fin_zero_left,
          List.filter_cons_of_neg (by simp [hx]), ih]
      · rw [List.map_cons, if_neg hx, List.filter_cons_of_pos (by simp [hx]),
          listSum_cons, listSum_cons, ih]

/-- The mean of a nonempty slice of finite unit-interval values is a
finite value in the unit interval. -/
theorem mean1_bound {l : List EFloat}
    (h : ∀ x ∈ l, ∃ q, x = .fin q ∧ 0 ≤ q ∧ q ≤ 1) (hne : l ≠ []) :
    ∃ q, mean1 l = .fin q ∧ 0 ≤ q ∧ q ≤ 1 := by
  obtain ⟨S, hS, hS0, hS1⟩ := listSum_fin_le_card h
  have hn : 0 < (l.length : ℚ) := by
    have := List.length_pos.mpr hne
    exact_mod_cast this
  refine ⟨S / l.length, ?_, by positivity, ?_⟩
  · rw [mean1, hS]
    simp [EFloat.div, ne_of_gt hn]
  · rw [div_le_one hn]
    exact hS1

/-- The mean of any slice of finite unit-interval values is NaN (empty
slice) or a finite value in the unit interval. -/
theorem mean1_nan_or_bound {l : List EFloat}
    (h : ∀ x ∈ l, ∃ q, x = .fin q ∧ 0 ≤ q ∧ q ≤ 1) :
    mean1 l = .nan ∨ ∃ q, mean1 l = .fin q ∧ 0 ≤ q ∧ q ≤ 1 := by
  cases l with
  | nil => left; rfl
  | cons x xs => right; exact mean1_bound h (by simp)

/-- A successful np.average of finite unit-interval values against
nonnegative finite weights is a finite value in the unit interval. -/
theorem avg1_bound {vs ws : List EFloat} {r : EFloat}
    (hv : ∀ x ∈ vs, ∃ q, x = .fin q ∧ 0 ≤ q ∧ q ≤ 1)
    (hw : ∀ x ∈ ws, ∃ q, x = .fin q ∧ 0 ≤ q)
    (h : avg1 vs ws = .ok r) :
    ∃ q, r = .fin q ∧ 0 ≤ q ∧ q ≤ 1 := by
  obtain ⟨S, W, hS, hW, hS0, hSW⟩ := listSum_zipWith_mul_bound vs ws hv hw
  unfold avg1 at h
  rw [hW] at h
  by_cases hW0 : W = 0
  · simp [EFloat.beq, hW0] at h
  · obtain ⟨W0, hWf, hWn⟩ := listSum_fin_nonneg hw
    rw [hW] at hWf
    have hWpos : 0 < W := lt_of_le_of_ne (by injection hWf with hq; exact hq ▸ hWn)
      (Ne.symm hW0)
    simp only [EFloat.beq, decide_eq_true_eq, hW0, if_false] at h
    rw [hS] at h
    refine ⟨S / W, ?_, by positivity, ?_⟩
    · rw [← Except.ok.injEq]
      rw [← h]
      simp [EFloat.div, hW0]
    · rw [div_le_one hWpos]
      exact hSW

/-! ## Membership of axis slices in the flattened data -/

theorem mem_of_mem_zipWith {α β γ : Type} (f : α → β → γ) :
    ∀ (l1 : List α) (l2 : List β) (z : γ), z ∈ List.zipWith f l1 l2 →
      ∃ a b, a ∈ l1 ∧ b ∈ l2 ∧ z = f a b := by
  intro l1
  induction l1 with
  | nil => intro l2 z h; simp at h
  | cons x xs ih =>
      intro l2 z h
      cases l2 with
      | nil => simp at h
      | cons y ys =>
          rcases List.mem_cons.mp h with h1 | h1
          · exact ⟨x, y, List.mem_cons_self x xs, List.mem_cons_self y ys, h1⟩
          · obtain ⟨a, b, ha, hb, hz⟩ := ih ys z h1
            exact ⟨a, b, List.mem_cons_of_mem x ha, List.mem_cons_of_mem y hb, hz⟩

/-- Every entry of every column produced by transposeR is an entry of the
original flattened matrix. -/
theorem mem_flatten_of_mem_transposeR :
    ∀ (xss : List (List EFloat)) (c : List EFloat), c ∈ transposeR xss →
      ∀ x ∈ c, x ∈ xss.flatten := by
  intro xss
  induction xss with
  | nil => intro c hc; simp [transposeR] at hc
  | cons r rs ih =>
      intro c hc x hx
      cases rs with
      | nil =>
          simp only [transposeR] at hc
          obtain ⟨a, ha, hc⟩ := List.mem_map.mp hc
          subst hc
          simp at hx
          subst hx
          simpa using ha
      | cons s rs' =>
          simp only [transposeR] at hc
          obtain ⟨a, t, ha, ht, hz⟩ := mem_of_mem_zipWith _ _ _ _ hc
          subst hz
          rcases List.mem_cons.mp hx with h1 | h1
          · subst h1; simp [ha]
          · have := ih t ht x h1
            simp only [List.flatten_cons, List.mem_append]
            right
            simpa using this

/-- Extracting an ok-list from a list of Except values: every extracted
element was an ok element of the original list. -/
theorem exceptList_ok_mem :
    ∀ (es : List (Except PyError EFloat)) (l : List EFloat),
      exceptList es = .ok l → ∀ x ∈ l, Except.ok x ∈ es := by
  intro es
  induction es with
  | nil =>
      intro l h x hx
      cases h
      simp at hx
  | cons e es ih =>
      intro l h x hx
      cases e with
      | error err => simp [exceptList] at h
      | ok v =>
          cases hm : exceptList es with
          | error err => rw [exceptList, hm] at h; cases h
          | ok tl =>
              rw [exceptList, hm] at h
              cases h
              rcases List.mem_cons.mp hx with h1 | h1
              · subst h1; exact List.mem_cons_self _ _
              · exact List.mem_cons_of_mem _ (ih tl hm x h1)

/-! ## Safe division, elementwise -/

/-- The two masked assignments of _divide_no_nan compose into dnnElt. -/
theorem mask_mask_eq_dnnElt (x y : EFloat) :
    (fun z => if z.beq .pinf then EFloat.fin 0 else z)
      ((fun z => if z.bne z then EFloat.fin 0 else z) (x.div y)) = dnnElt x y := by
  simp only [dnnElt]
  cases hb : (x.div y).bne (x.div y)
  · simp [hb]
  · simp [hb, EFloat.beq]

/-- dnnElt zeroes exactly the NaN and plus-infinity quotients. -/
theorem dnnElt_eq_ite (x y : EFloat) :
    dnnElt x y = if ((x.div y).isNaN || (x.div y).beq .pinf) then EFloat.fin 0
      else x.div y := by
  simp only [dnnElt, EFloat.bne_self_eq_isNaN]
  cases hn : (x.div y).isNaN
  · cases hb : (x.div y).beq .pinf <;> simp [hn, hb]
  · simp [hn]

/-- _divide_no_nan acts elementwise as dnnElt on one-dimensional data. -/
theorem divide_no_nan_vec (a b : List EFloat) :
    _divide_no_nan (.vec a) (.vec b) = .vec (List.zipWith dnnElt a b) := by
  simp only [_divide_no_nan, Arr.bop, Arr.map]
  congr 1
  induction a generalizing b with
  | nil => cases b <;> rfl
  | cons x xs ih =>
      cases b with
      | nil => rfl
      | cons y ys =>
          simp only [List.zipWith_cons_cons, List.map_cons]
          rw [ih]
          congr 1
          exact mask_mask_eq_dnnElt x y

/-! ## The mape and smape transforms, elementwise -/

/-- Row-level form of the smape transform. -/
theorem smape_row (r s : List EFloat) :
    ((List.zipWith EFloat.div (List.zipWith (fun a b => (a.sub b).abs) r s)
        (List.zipWith EFloat.add (r.map EFloat.abs) (s.map EFloat.abs))).map
      (fun z => if z.bne z then EFloat.fin 0 else z)).map
      (fun z => if z.beq .pinf then EFloat.fin 0 else z)
    = List.zipWith smapeElt r s := by
  induction r generalizing s with
  | nil => cases s <;> rfl
  | cons x xs ih =>
      cases s with
      | nil => rfl
      | cons y ys =>
          simp only [List.zipWith_cons_cons, List.map_cons, ih]
          congr 1
          exact mask_mask_eq_dnnElt _ _

/-- Row-level form of the mape transform. -/
theorem mape_row (r s : List EFloat) :
    ((List.zipWith EFloat.div (List.zipWith (fun a b => (a.sub b).abs) r s)
        (r.map EFloat.abs)).map
      (fun z => if z.bne z then EFloat.fin 0 else z)).map
      (fun z => if z.beq .pinf then EFloat.fin 0 else z)
    = List.zipWith mapeElt r s := by
  induction r generalizing s with
  | nil => cases s <;> rfl
  | cons x xs ih =>
      cases s with
      | nil => rfl
      | cons y ys =>
          simp only [List.zipWith_cons_cons, List.map_cons, ih]
          congr 1
          exact mask_mask_eq_dnnElt _ _

/-- Every smape element is a finite value in the unit interval: on
finite inputs the triangle inequality bounds the quotient, and every
NaN or infinite intermediate is flattened to 0 by the safe division. -/
theorem smapeElt_bound (a b : EFloat) :
    ∃ q, smapeElt a b = .fin q ∧ 0 ≤ q ∧ q ≤ 1 := by
  cases a with
  | nan => exact ⟨0, by cases b <;> rfl, le_refl 0, zero_le_one⟩
  | pinf =>
      cases b with
      | nan => exact ⟨0, rfl, le_refl 0, zero_le_one⟩
      | pinf => exact ⟨0, rfl, le_refl 0, zero_le_one⟩
      | ninf => exact ⟨0, rfl, le_refl 0, zero_le_one⟩
      | fin t => exact ⟨0, rfl, le_refl 0, zero_le_one⟩
  | ninf =>
      cases b with
      | nan => exact ⟨0, rfl, le_refl 0, zero_le_one⟩
      | pinf => exact ⟨0, rfl, le_refl 0, zero_le_one⟩
      | ninf => exact ⟨0, rfl, le_refl 0, zero_le_one⟩
      | fin t => exact ⟨0, rfl, le_refl 0, zero_le_one⟩
  | fin p =>
      cases b with
      | nan => exact ⟨0, rfl, le_refl 0, zero_le_one⟩
      | pinf => exact ⟨0, rfl, le_refl 0, zero_le_one⟩
      | ninf => exact ⟨0, rfl, le_refl 0, zero_le_one⟩
      | fin t =>
          by_cases hd : |p| + |t| = 0
          · have hp : |p| = 0 := by nlinarith [abs_nonneg p, abs_nonneg t]
            have ht : |t| = 0 := by nlinarith [abs_nonneg p, abs_nonneg t]
            have hp0 : p = 0 := abs_eq_zero.mp hp
            have ht0 : t = 0 := abs_eq_zero.mp ht
            subst hp0; subst ht0
            exact ⟨0, by norm_num [smapeElt, dnnElt, EFloat.sub, EFloat.neg,
              EFloat.add, EFloat.abs, EFloat.div, EFloat.bne, EFloat.beq],
              le_refl 0, zero_le_one⟩
          · have hpos : 0 < |p| + |t| := lt_of_le_of_ne (by positivity) (Ne.symm hd)
            refine ⟨|p + -t| / (|p| + |t|), ?_, by positivity, ?_⟩
            · simp only [smapeElt, dnnElt, EFloat.sub, EFloat.neg, EFloat.add,
                EFloat.abs, EFloat.div]
              rw [if_neg hd]
              simp [EFloat.bne, EFloat.beq]
            · rw [div_le_one hpos]
              calc |p + -t| ≤ |p| + |-t| := abs_add p (-t)
                _ = |p| + |t| := by rw [abs_neg]

/-- Every mape element is a finite nonnegative value: the safe division
flattens every NaN and infinite quotient to 0, and a finite quotient of
two nonnegative values is nonnegative. -/
theorem mapeElt_fin_nonneg (a b : EFloat) :
    ∃ q, mapeElt a b = .fin q ∧ 0 ≤ q := by
  cases a with
  | nan => exact ⟨0, by cases b <;> rfl, le_refl 0⟩
  | pinf => exact ⟨0, by cases b <;> rfl, le_refl 0⟩
  | ninf => exact ⟨0, by cases b <;> rfl, le_refl 0⟩
  | fin p =>
      cases b with
      | nan => exact ⟨0, rfl, le_refl 0⟩
      | pinf =>
          exact ⟨0, by simp [mapeElt, dnnElt, EFloat.sub, EFloat.neg, EFloat.add,
            EFloat.abs, EFloat.div, abs_nonneg, EFloat.bne, EFloat.beq], le_refl 0⟩
      | ninf =>
          exact ⟨0, by simp [mapeElt, dnnElt, EFloat.sub, EFloat.neg, EFloat.add,
            EFloat.abs, EFloat.div, abs_nonneg, EFloat.bne, EFloat.beq], le_refl 0⟩
      | fin t =>
          by_cases hd : |p| = 0
          · by_cases hn : |p + -t| = 0
            · exact ⟨0, by simp [mapeElt, dnnElt, EFloat.sub, EFloat.neg,
                EFloat.add, EFloat.abs, EFloat.div, hd, hn, EFloat.bne,
                EFloat.beq], le_refl 0⟩
            · have hnpos : 0 < |p + -t| := lt_of_le_of_ne (by positivity) (Ne.symm hn)
              exact ⟨0, by simp [mapeElt, dnnElt, EFloat.sub, EFloat.neg,
                EFloat.add, EFloat.abs, EFloat.div, hd, hn, hnpos, EFloat.bne,
                EFloat.beq], le_refl 0⟩
          · refine ⟨|p + -t| / |p|, ?_, by positivity⟩
            simp only [mapeElt, dnnElt, EFloat.sub, EFloat.neg, EFloat.add,
              EFloat.abs, EFloat.div]
            rw [if_neg hd]
            simp [EFloat.bne, EFloat.beq]

/-! ## Bounds on np.average results -/

theorem Arr.flatten_map (f : EFloat → EFloat) (a : Arr) :
    (Arr.map f a).flatten = a.flatten.map f := by
  cases a with
  | scl x => rfl
  | vec xs => rfl
  | mat xss =>
      simp only [Arr.map, Arr.flatten]
      induction xss with
      | nil => rfl
      | cons r rs ih =>
          simp only [List.map_cons, List.flatten_cons, List.map_append, ih]

/-- Every element of a successful np.average of finite unit-interval
values against nonnegative finite weights (or no weights) is NaN (an
empty unweighted slice) or a finite value in the unit interval. -/
theorem npAverage_nan_or_bound {a : Arr} {w : Option Arr} {axis : Option Nat} {r : Arr}
    (hv : ∀ x ∈ a.flatten, ∃ q, x = .fin q ∧ 0 ≤ q ∧ q ≤ 1)
    (hw : ∀ wa, w = some wa → ∀ x ∈ wa.flatten, ∃ q, x = .fin q ∧ 0 ≤ q)
    (h : Arr.npAverage a w axis = .ok r) :
    ∀ x ∈ r.flatten, x = .nan ∨ ∃ q, x = .fin q ∧ 0 ≤ q ∧ q ≤ 1 := by
  cases a with
  | scl v =>
      cases w with
      | none =>
          cases axis with
          | none =>
              cases h
              intro x hx
              simp only [Arr.flatten, List.mem_singleton] at hx
              subst hx
              exact mean1_nan_or_bound (fun y hy => hv y hy)
          | some ax => cases h
      | some wa => cases h
  | vec xs =>
      cases w with
      | none =>
          simp only [Arr.npAverage] at h
          split at h
          · cases h
            intro x hx
            simp only [Arr.flatten, List.mem_singleton] at hx
            subst hx
            exact mean1_nan_or_bound hv
          · cases h
      | some wa =>
          cases wa with
          | scl v => cases h
          | mat wss => cases h
          | vec ws =>
              simp only [Arr.npAverage] at h
              split at h
              · split at h
                · cases havg : avg1 xs ws with
                  | error e => rw [havg] at h; cases h
                  | ok v =>
                      rw [havg] at h
                      simp only [Except.map] at h
                      cases h
                      intro x hx
                      simp only [Arr.flatten, List.mem_singleton] at hx
                      subst hx
                      exact Or.inr (avg1_bound hv (hw _ rfl) havg)
                · cases h
              · cases h
  | mat xss =>
      cases w with
      | none =>
          cases axis with
          | none =>
              cases h
              intro x hx
              simp only [Arr.flatten, List.mem_singleton] at hx
              subst hx
              exact mean1_nan_or_bound hv
          | some n =>
              match n, h with
              | 0, h =>
                  cases h
                  intro x hx
                  simp only [Arr.flatten] at hx
                  obtain ⟨c, hc, hx⟩ := List.mem_map.mp hx
                  subst hx
                  exact mean1_nan_or_bound
                    (fun v hv' => hv v (mem_flatten_of_mem_transposeR xss c hc v hv'))
              | 1, h =>
                  cases h
                  intro x hx
                  simp only [Arr.flatten] at hx
                  obtain ⟨c, hc, hx⟩ := List.mem_map.mp hx
                  subst hx
                  exact mean1_nan_or_bound
                    (fun v hv' => hv v (List.mem_flatten.mpr ⟨c, hc, hv'⟩))
              | (Nat.succ (Nat.succ m)), h => cases h
      | some wa =>
          cases wa with
          | scl v => cases h
          | vec ws => cases h
          | mat wss =>
              cases axis with
              | none =>
                  simp only [Arr.npAverage] at h
                  split at h
                  · cases havg : avg1 xss.flatten wss.flatten with
                    | error e => rw [havg] at h; cases h
                    | ok v =>
                        rw [havg] at h
                        simp only [Except.map] at h
                        cases h
                        intro x hx
                        simp only [Arr.flatten, List.mem_singleton] at hx
                        subst hx
                        exact Or.inr (avg1_bound hv (hw _ rfl) havg)
                  · cases h
              | some n =>
                  match n, h with
                  | 0, h =>
                      simp only [Arr.npAverage] at h
                      split at h
                      · cases hel : exceptList
                            (List.zipWith avg1 (transposeR xss) (transposeR wss)) with
                        | error e => rw [hel] at h; cases h
                        | ok l =>
                            rw [hel] at h
                            simp only [Except.map] at h
                            cases h
                            intro x hx
                            simp only [Arr.flatten] at hx
                            have hmem := exceptList_ok_mem _ _ hel x hx
                            obtain ⟨c, d, hc, hd, hcd⟩ :=
                              mem_of_mem_zipWith _ _ _ _ hmem
                            refine Or.inr (avg1_bound ?_ ?_ hcd.symm)
                            · exact fun v hv' =>
                                hv v (mem_flatten_of_mem_transposeR xss c hc v hv')
                            · exact fun v hv' => hw _ rfl v
                                (mem_flatten_of_mem_transposeR wss d hd v hv')
                      · cases h
                  | 1, h =>
                      simp only [Arr.npAverage] at h
                      split at h
                      · cases hel : exceptList (List.zipWith avg1 xss wss) with
                        | error e => rw [hel] at h; cases h
                        | ok l =>
                            rw [hel] at h
                            simp only [Except.map] at h
                            cases h
                            intro x hx
                            simp only [Arr.flatten] at hx
                            have hmem := exceptList_ok_mem _ _ hel x hx
                            obtain ⟨c, d, hc, hd, hcd⟩ :=
                              mem_of_mem_zipWith _ _ _ _ hmem
                            refine Or.inr (avg1_bound ?_ ?_ hcd.symm)
                            · exact fun v hv' => hv v (List.mem_flatten.mpr ⟨c, hc, hv'⟩)
                            · exact fun v hv' =>
                                hw _ rfl v (List.mem_flatten.mpr ⟨d, hd, hv'⟩)
                      · cases h
                  | (Nat.succ (Nat.succ m)), h => cases h

/-! ## The smape transform at array level -/

theorem smape_mat_rows (yss hss : List (List EFloat)) :
    ((List.zipWith (List.zipWith EFloat.div)
        (List.zipWith (List.zipWith (fun a b => (a.sub b).abs)) yss hss)
        (List.zipWith (List.zipWith EFloat.add) (yss.map (List.map EFloat.abs))
          (hss.map (List.map EFloat.abs)))).map
      (List.map (fun z => if z.bne z then EFloat.fin 0 else z))).map
      (List.map (fun z => if z.beq .pinf then EFloat.fin 0 else z))
    = List.zipWith (fun r s => List.zipWith smapeElt r s) yss hss := by
  induction yss generalizing hss with
  | nil => cases hss <;> rfl
  | cons r rs ih =>
      cases hss with
      | nil => rfl
      | cons s ss =>
          simp only [List.map_cons, List.zipWith_cons_cons]
          congr 1
          · exact smape_row r s
          · exact ih ss

theorem smape_m_scl (v u : EFloat) :
    _divide_no_nan (Arr.bop (fun a b => (a.sub b).abs) (.scl v) (.scl u))
      (Arr.bop EFloat.add ((Arr.scl v).map EFloat.abs) ((Arr.scl u).map EFloat.abs))
    = .scl (smapeElt v u) := by
  simp only [_divide_no_nan, Arr.bop, Arr.map]
  congr 1
  exact mask_mask_eq_dnnElt ((v.sub u).abs) (v.abs.add u.abs)

theorem smape_m_vec (xs ys : List EFloat) :
    _divide_no_nan (Arr.bop (fun a b => (a.sub b).abs) (.vec xs) (.vec ys))
      (Arr.bop EFloat.add ((Arr.vec xs).map EFloat.abs) ((Arr.vec ys).map EFloat.abs))
    = .vec (List.zipWith smapeElt xs ys) := by
  simp only [_divide_no_nan, Arr.bop, Arr.map]
  congr 1
  exact smape_row xs ys

theorem smape_m_mat (yss hss : List (List EFloat)) :
    _divide_no_nan (Arr.bop (fun a b => (a.sub b).abs) (.mat yss) (.mat hss))
      (Arr.bop EFloat.add ((Arr.mat yss).map EFloat.abs) ((Arr.mat hss).map EFloat.abs))
    = .mat (List.zipWith (fun r s => List.zipWith smapeElt r s) yss hss) := by
  simp only [_divide_no_nan, Arr.bop, Arr.map]
  congr 1
  exact smape_mat_rows yss hss

/-- For same-shaped inputs, every element the smape average sees is a
finite value in the unit interval. -/
theorem smape_m_elem (y y_hat : Arr) (hshape : y.shape = y_hat.shape) :
    ∀ x ∈ (_divide_no_nan (Arr.bop (fun a b => (a.sub b).abs) y y_hat)
      (Arr.bop EFloat.add (y.map EFloat.abs) (y_hat.map EFloat.abs))).flatten,
      ∃ q, x = .fin q ∧ 0 ≤ q ∧ q ≤ 1 := by
  cases y with
  | scl v =>
      cases y_hat with
      | scl u =>
          intro x hx
          rw [smape_m_scl] at hx
          simp only [Arr.flatten, List.mem_singleton] at hx
          subst hx
          exact smapeElt_bound v u
      | vec ys => simp [Arr.shape] at hshape
      | mat yss => simp [Arr.shape] at hshape
  | vec xs =>
      cases y_hat with
      | scl u => simp [Arr.shape] at hshape
      | vec ys =>
          intro x hx
          rw [smape_m_vec] at hx
          simp only [Arr.flatten] at hx
          obtain ⟨a, b, _, _, hz⟩ := mem_of_mem_zipWith _ _ _ _ hx
          subst hz
          exact smapeElt_bound a b
      | mat yss => simp [Arr.shape] at hshape
  | mat xss =>
      cases y_hat with
      | scl u => simp [Arr.shape] at hshape
      | vec ys => simp [Arr.shape] at hshape
      | mat yss =>
          intro x hx
          rw [smape_m_mat] at hx
          simp only [Arr.flatten] at hx
          obtain ⟨row, hrow, hx⟩ := List.mem_flatten.mp hx
          obtain ⟨r, s, _, _, hz⟩ := mem_of_mem_zipWith _ _ _ _ hrow
          subst hz
          obtain ⟨a, b, _, _, hz⟩ := mem_of_mem_zipWith _ _ _ _ hx
          subst hz
          exact smapeElt_bound a b

/-! ## Evaluation support: unfold the embedding in concrete computations -/

attribute [simp] EFloat.add EFloat.sub EFloat.neg EFloat.abs EFloat.mul EFloat.div
attribute [simp] EFloat.beq EFloat.bne EFloat.le EFloat.lt EFloat.isNaN EFloat.max
attribute [simp] listSum mean1 nanmean1 avg1 exceptList transposeR
attribute [simp] Arr.flatten Arr.shape Arr.map Arr.bop Arr.axOk1 Arr.npNanmean Arr.npAverage
attribute [simp] _divide_no_nan wrongDimMsg _metric_protections
attribute [simp] mae mse rmse ratSqrt fsqrtElt mape smape mase rmae
attribute [simp] quantile_loss mqloss machineEps scaled_crps coverage calibration
attribute [simp] dnnElt mapeElt smapeElt pinballElt protErrMsg covElt calElt
attribute [simp] Except.map List.replicate

/-! ## Claim theorems -/

/-- C1 (amended): for every pair of one-dimensional arrays, safe division
(_divide_no_nan) returns, at every position, 0.0 when the elementwise
quotient is NaN (0/0) or plus infinity (positive numerator over zero), and
the ordinary IEEE quotient otherwise — in particular minus infinity, from
a negative numerator over zero, is returned unchanged, not flattened to
0.0; no exception is raised for zero denominators (the function is total
by construction). -/
theorem divide_no_nan_flattens_nan_and_pinf (a b : List EFloat) :
    _divide_no_nan (.vec a) (.vec b) = .vec (List.zipWith
      (fun x y => if ((x.div y).isNaN || (x.div y).beq .pinf) then EFloat.fin 0
        else x.div y) a b) := by
  rw [divide_no_nan_vec]
  have hfun : dnnElt = fun x y =>
      if ((x.div y).isNaN || (x.div y).beq .pinf) then EFloat.fin 0 else x.div y :=
    funext fun x => funext fun y => dnnElt_eq_ite x y
  rw [hfun]

/-- C1 counterexample: the claim says minus infinity arising from a
negative numerator over zero is also flattened to 0.0, but the source
only masks positions comparing equal to float inf, so -1/0 returns minus
infinity, not 0.0. -/
theorem divide_no_nan_neg_inf_counterexample :
    _divide_no_nan (.vec [.fin (-1)]) (.vec [.fin 0]) = .vec [EFloat.ninf] ∧
      EFloat.ninf ≠ EFloat.fin 0 := by
  constructor
  · norm_num
  · exact fun h => EFloat.noConfusion h

/-- C4: the claim says the weighted reduction of mae restricts values and
weights to non-NaN positions and then reduces along the requested axis,
returning a result of reduced rank.  On a NaN-free 2-by-2 input with
all-ones weights, boolean-mask indexing flattens the data to one
dimension, so axis 0 returns the scalar grand mean 3.0 instead of the
axis-0 weighted means [2.0, 4.0] (which the unweighted path does
return), and axis 1 raises AxisError on the flattened array. -/
theorem mae_weighted_axis_flattens :
    mae (.mat [[.fin 0, .fin 2], [.fin 4, .fin 6]])
        (.mat [[.fin 0, .fin 0], [.fin 0, .fin 0]])
        (some (.mat [[.fin 1, .fin 1], [.fin 1, .fin 1]])) (some 0)
      = .ok (.scl (.fin 3)) ∧
    mae (.mat [[.fin 0, .fin 2], [.fin 4, .fin 6]])
        (.mat [[.fin 0, .fin 0], [.fin 0, .fin 0]])
        (some (.mat [[.fin 1, .fin 1], [.fin 1, .fin 1]])) (some 1)
      = .error .axisError ∧
    mae (.mat [[.fin 0, .fin 2], [.fin 4, .fin 6]])
        (.mat [[.fin 0, .fin 0], [.fin 0, .fin 0]])
        none (some 0)
      = .ok (.vec [.fin 2, .fin 4]) := by
  refine ⟨?_, ?_, ?_⟩ <;> norm_num

/-- C5: rmse delegates to mse and applies np.sqrt elementwise to the
(possibly array-valued) result, for every weights and axis setting on
which mse is defined. -/
theorem rmse_eq_sqrt_mse (y y_hat : Arr) (weights : Option Arr)
    (axis : Option Nat) (r : Arr) (h : mse y y_hat weights axis = .ok r) :
    rmse y y_hat weights axis = .ok (r.map fsqrtElt) := by
  unfold rmse
  rw [h]
  rfl

/-- C5 witness: on a 2-by-2 input reduced along axis 1, mse returns the
vector [25, 25] and rmse returns its elementwise square root. -/
theorem rmse_eq_sqrt_mse_witness :
    rmse (.mat [[.fin 1, .fin 7], [.fin 7, .fin 1]])
        (.mat [[.fin 0, .fin 0], [.fin 0, .fin 0]]) none (some 1)
      = .ok ((Arr.vec [.fin 25, .fin 25]).map fsqrtElt) :=
  rmse_eq_sqrt_mse _ _ none (some 1) (.vec [.fin 25, .fin 25]) (by norm_num)

/-- Any violated weight precondition makes _metric_protections fail with
the corresponding AssertionError message (the sum assert fires first). -/
theorem metric_protections_fail (y y_hat w : Arr)
    (hbad : (EFloat.fin 0).lt (listSum w.flatten) = false ∨ w.shape ≠ y.shape) :
    _metric_protections y y_hat (some w)
      = .error (.assertionError (protErrMsg y w)) := by
  unfold _metric_protections protErrMsg
  cases hlt : (EFloat.fin 0).lt (listSum w.flatten) with
  | false => simp only [hlt, Bool.false_eq_true, if_false]
  | true =>
      have h2 : w.shape ≠ y.shape := by
        rcases hbad with h | h
        · rw [h] at hlt; cases hlt
        · exact h
      simp only [hlt, if_true, h2, if_false]

/-- C2 (amended): for every metric that accepts weights except mase
(mae, mse, rmse, mape, smape, quantile_loss, rmae, mqloss, scaled_crps),
a provided weight array whose sum is not strictly positive or whose
shape differs from y's fails with the AssertionError of
_metric_protections before any computation proceeds, and in the
shape-mismatch case (positive sum) the message contains both shapes;
mase performs no weight validation (see the counterexample). -/
theorem weight_validation_all_metrics
    (y y_hat y_hat2 w : Arr) (axis : Option Nat) (q : ℚ)
    (yq : List EFloat) (yhq : List (List EFloat)) (qs : List ℚ) (wq : List EFloat)
    (hbad : (EFloat.fin 0).lt (listSum w.flatten) = false ∨ w.shape ≠ y.shape)
    (hbadq : (EFloat.fin 0).lt (listSum (Arr.vec wq).flatten) = false ∨
      (Arr.vec wq).shape ≠ (Arr.vec yq).shape) :
    _metric_protections y y_hat (some w)
        = .error (.assertionError (protErrMsg y w)) ∧
    mae y y_hat (some w) axis = .error (.assertionError (protErrMsg y w)) ∧
    mse y y_hat (some w) axis = .error (.assertionError (protErrMsg y w)) ∧
    rmse y y_hat (some w) axis = .error (.assertionError (protErrMsg y w)) ∧
    mape y y_hat (some w) axis = .error (.assertionError (protErrMsg y w)) ∧
    smape y y_hat (some w) axis = .error (.assertionError (protErrMsg y w)) ∧
    quantile_loss y y_hat q (some w) axis
        = .error (.assertionError (protErrMsg y w)) ∧
    rmae y y_hat y_hat2 (some w) axis = .error (.assertionError (protErrMsg y w)) ∧
    mqloss yq yhq qs (some wq) axis
        = .error (.assertionError (protErrMsg (.vec yq) (.vec wq))) ∧
    scaled_crps yq yhq qs (some wq) axis
        = .error (.assertionError (protErrMsg (.vec yq) (.vec wq))) ∧
    ((EFloat.fin 0).lt (listSum w.flatten) = true →
      ∃ pre mid, protErrMsg y w
        = pre ++ toString w.shape ++ mid ++ toString y.shape) := by
  have hp := metric_protections_fail y y_hat w hbad
  have hpq := metric_protections_fail (.vec yq) (.mat yhq) (.vec wq) hbadq
  have hmae : mae y y_hat (some w) axis = .error (.assertionError (protErrMsg y w)) := by
    simp only [mae, hp]
  have hmse : mse y y_hat (some w) axis = .error (.assertionError (protErrMsg y w)) := by
    simp only [mse, hp]
  have hmq : mqloss yq yhq qs (some wq) axis
      = .error (.assertionError (protErrMsg (.vec yq) (.vec wq))) := by
    simp only [mqloss, Option.getD_some, hpq]
  refine ⟨hp, hmae, hmse, ?_, ?_, ?_, ?_, ?_, hmq, ?_, ?_⟩
  · simp only [rmse, hmse, Except.map]
  · simp only [mape, hp]
  · simp only [smape, hp]
  · simp only [quantile_loss, hp]
  · simp only [rmae, hmae]
  · simp only [scaled_crps, hmq]
  · intro hlt
    refine ⟨"Wrong weight dimension weights.shape ", ", y.shape ", ?_⟩
    simp only [protErrMsg, hlt, if_true, wrongDimMsg]

/-- C2 witness: a one-element weight vector summing to zero makes mae and
mqloss fail with the precondition AssertionError. -/
theorem weight_validation_all_metrics_witness :
    mae (.vec [.fin 1]) (.vec [.fin 1]) (some (.vec [.fin 0])) none
      = .error (.assertionError (protErrMsg (.vec [.fin 1]) (.vec [.fin 0]))) ∧
    mqloss [.fin 1] [[.fin 1]] [1/2] (some [.fin 0]) none
      = .error (.assertionError (protErrMsg (.vec [.fin 1]) (.vec [.fin 0]))) := by
  have h := weight_validation_all_metrics (.vec [.fin 1]) (.vec [.fin 1])
    (.vec [.fin 1]) (.vec [.fin 0]) none (1/2) [.fin 1] [[.fin 1]] [1/2] [.fin 0]
    (Or.inl (by norm_num)) (Or.inl (by norm_num))
  exact ⟨h.2.1, h.2.2.2.2.2.2.2.2.1⟩

/-- C2 counterexample: mase never calls _metric_protections, so a weight
vector summing to zero does not raise the claimed PreconditionError; the
zero weight sum instead surfaces as np.average's ZeroDivisionError. -/
theorem mase_skips_weight_validation :
    mase (.vec [.fin 1]) (.vec [.fin 0]) [.fin 1, .fin 2] 1
        (some (.vec [.fin 0])) none = .error PyError.zeroDivisionError ∧
    PyError.zeroDivisionError
      ≠ PyError.assertionError ("Sum of weights cannot be 0") := by
  constructor
  · norm_num
  · exact fun h => PyError.noConfusion h

/-! ## Further helper lemmas for the NaN-policy and quantile claims -/

theorem mean1_fin_nonneg {l : List EFloat}
    (h : ∀ x ∈ l, ∃ q, x = .fin q ∧ 0 ≤ q) (hne : l ≠ []) :
    ∃ m, mean1 l = .fin m ∧ 0 ≤ m := by
  obtain ⟨S, hS, hS0⟩ := listSum_fin_nonneg h
  have hn : 0 < (l.length : ℚ) := by exact_mod_cast List.length_pos.mpr hne
  refine ⟨S / l.length, ?_, by positivity⟩
  rw [mean1, hS]
  simp [EFloat.div, ne_of_gt hn]

theorem lt_zero_fin_pos {p : ℚ} (hp : 0 < p) :
    (EFloat.fin 0).lt (.fin p) = true := by
  simp [EFloat.lt, EFloat.le, EFloat.beq, hp.le, hp.ne]

theorem add_fin_add (p q : ℚ) (S : EFloat) :
    (EFloat.fin p).add ((EFloat.fin q).add S) = (EFloat.fin (p + q)).add S := by
  cases S <;> simp [EFloat.add] <;> ring

theorem listSum_replicate_one_append (k : Nat) (l : List EFloat) :
    listSum (List.replicate k (.fin 1) ++ l)
      = (EFloat.fin (k : ℚ)).add (listSum l) := by
  induction k with
  | zero =>
      simp only [List.replicate, List.nil_append, Nat.cast_zero]
      exact (EFloat.add_fin_zero_left _).symm
  | succ m ih =>
      rw [List.replicate_succ, List.cons_append, listSum_cons, ih, add_fin_add]
      have hc : (1 : ℚ) + (m : ℚ) = ((m + 1 : Nat) : ℚ) := by push_cast; ring
      rw [hc]

theorem listSum_flatten_replicate_ones (n m : Nat) :
    listSum ((List.replicate n (List.replicate m (EFloat.fin 1))).flatten)
      = .fin ((n * m : Nat) : ℚ) := by
  induction n with
  | zero => simp [listSum]
  | succ k ih =>
      rw [List.replicate_succ, List.flatten_cons, listSum_replicate_one_append, ih]
      simp only [EFloat.add]
      push_cast
      ring_nf

theorem zipWith_mul_ones :
    ∀ (l w : List EFloat), (∀ x ∈ w, x = .fin 1) → l.length ≤ w.length →
      List.zipWith EFloat.mul l w = l := by
  intro l
  induction l with
  | nil => intro w _ _; simp
  | cons x xs ih =>
      intro w hw hl
      cases w with
      | nil => simp at hl
      | cons v vs =>
          have hv : v = .fin 1 := hw v (List.mem_cons_self v vs)
          rw [List.zipWith_cons_cons, hv, EFloat.mul_fin_one_right,
            ih vs (fun u hu => hw u (List.mem_cons_of_mem v hu))
              (by simpa using hl)]

theorem flatten_length_of_rows {L : List (List EFloat)} {m : Nat}
    (h : ∀ r ∈ L, r.length = m) : L.flatten.length = L.length * m := by
  induction L with
  | nil => simp
  | cons r rs ih =>
      simp only [List.flatten_cons, List.length_append, List.length_cons,
        h r (List.mem_cons_self r rs),
        ih (fun u hu => h u (List.mem_cons_of_mem r hu))]
      ring

theorem headD_length_of_rows {L : List (List EFloat)} {m : Nat}
    (hne : L ≠ []) (h : ∀ r ∈ L, r.length = m) : (L.headD []).length = m := by
  cases L with
  | nil => cases hne rfl
  | cons a tl => exact h a (List.mem_cons_self a tl)

/-- Row-level characterization of the mape transform at rank one. -/
theorem mape_m_vec (xs ys : List EFloat) :
    _divide_no_nan (Arr.bop (fun a b => (a.sub b).abs) (.vec xs) (.vec ys))
      ((Arr.vec xs).map EFloat.abs) = .vec (List.zipWith mapeElt xs ys) := by
  simp only [_divide_no_nan, Arr.bop, Arr.map]
  congr 1
  exact mape_row xs ys

/-- Unweighted full-reduction mape evaluates to 100 times the plain mean
of the elementwise safe quotients (NaN positions contribute 0 and stay
in the count). -/
theorem mape_vec_eval (ys yhs : List EFloat) :
    mape (.vec ys) (.vec yhs) none none
      = .ok (.scl ((EFloat.fin 100).mul (mean1 (List.zipWith mapeElt ys yhs)))) := by
  simp only [mape, _metric_protections]
  rw [mape_m_vec]
  rfl

/-- Unweighted full-reduction smape evaluates to 200 times the plain mean
of the elementwise safe quotients, provided that mean is at most 1 (the
assert passes). -/
theorem smape_vec_eval (ys yhs : List EFloat) (s : ℚ)
    (hs : mean1 (List.zipWith smapeElt ys yhs) = .fin s) (hs1 : s ≤ 1) :
    smape (.vec ys) (.vec yhs) none none = .ok (.scl (.fin (200 * s))) := by
  simp only [smape, _metric_protections]
  rw [smape_m_vec]
  have h1 : Arr.npAverage (Arr.vec (List.zipWith smapeElt ys yhs)) none none
      = .ok (.scl (mean1 (List.zipWith smapeElt ys yhs))) := rfl
  rw [h1, hs]
  have hle : (200 : ℚ) * s ≤ 200 := by linarith
  simp only [Arr.map, EFloat.mul, Arr.flatten, List.all_cons, List.all_nil,
    EFloat.le, decide_eq_true_eq, hle, Bool.and_true, if_true]

/-- A NaN observation contributes a whole NaN row to the broadcast error
matrix of mqloss. -/
theorem nan_err_row :
    ∀ (ys : List EFloat) (hss : List (List EFloat)), EFloat.nan ∈ ys →
      hss.length = ys.length →
      ∃ r ∈ hss, (r.map (fun h => EFloat.nan.sub h)) ∈
        List.zipWith (fun yi row => row.map (fun h => EFloat.sub yi h)) ys hss := by
  intro ys
  induction ys with
  | nil => intro hss h; simp at h
  | cons y ytl ih =>
      intro hss hmem hlen
      cases hss with
      | nil => simp at hlen
      | cons r rtl =>
          rcases List.mem_cons.mp hmem with h1 | h1
          · refine ⟨r, List.mem_cons_self r rtl, ?_⟩
            rw [List.zipWith_cons_cons, ← h1]
            exact List.mem_cons_self _ _
          · obtain ⟨r', hr', hmem'⟩ := ih rtl h1 (by simpa using hlen)
            exact ⟨r', List.mem_cons_of_mem r hr',
              List.mem_cons_of_mem _ hmem'⟩

/-- mqloss propagates a NaN observation to the aggregate: with the
default all-ones weights, the weighted average includes the NaN pinball
losses of the NaN observation, and the sum (hence the result) is NaN. -/
theorem mqloss_nan_eval (ysq : List EFloat) (yhsq : List (List EFloat)) (qs : List ℚ)
    (hnan : EFloat.nan ∈ ysq)
    (hlq : yhsq.length = ysq.length)
    (hrows : ∀ r ∈ yhsq, r.length = qs.length) (hq : qs ≠ []) :
    mqloss ysq yhsq qs none none = .ok (.scl .nan) := by
  have hn : 0 < ysq.length := List.length_pos.mpr (List.ne_nil_of_mem hnan)
  have hnq : 0 < qs.length := List.length_pos.mpr hq
  have hpos : (0 : ℚ) < (ysq.length : ℚ) := by exact_mod_cast hn
  set err := List.zipWith (fun yi row => row.map (fun h => EFloat.sub yi h)) ysq yhsq
    with herr_def
  set loss := err.map (fun row => List.zipWith
      (fun q e => EFloat.max ((EFloat.fin q).mul e) ((EFloat.fin (q - 1)).mul e))
      qs row) with hloss_def
  have herr_len : err.length = ysq.length := by
    rw [herr_def, List.length_zipWith, hlq, min_self]
  have herrlen : ∀ r ∈ err, r.length = qs.length := by
    intro r hr
    rw [herr_def] at hr
    obtain ⟨a, row, _, hrow, rfl⟩ := mem_of_mem_zipWith _ _ _ _ hr
    rw [List.length_map]
    exact hrows row hrow
  have hloss_len : loss.length = ysq.length := by
    rw [hloss_def, List.length_map, herr_len]
  have hlosslen : ∀ r ∈ loss, r.length = qs.length := by
    intro r hr
    rw [hloss_def] at hr
    obtain ⟨e, he, rfl⟩ := List.mem_map.mp hr
    rw [List.length_zipWith, herrlen e he, min_self]
  -- NaN sits in the flattened loss
  have hinan : EFloat.nan ∈ loss.flatten := by
    obtain ⟨r, hr, hmem⟩ := nan_err_row ysq yhsq hnan hlq
    have hrlen : r.length = qs.length := hrows r hr
    have hrne : r ≠ [] := List.ne_nil_of_length_pos (by rw [hrlen]; exact hnq)
    have hlossrow : (List.zipWith
        (fun q e => EFloat.max ((EFloat.fin q).mul e) ((EFloat.fin (q - 1)).mul e))
        qs (r.map (fun h => EFloat.nan.sub h))) ∈ loss := by
      rw [hloss_def]
      exact List.mem_map.mpr ⟨_, hmem, rfl⟩
    refine List.mem_flatten.mpr ⟨_, hlossrow, ?_⟩
    cases hqs : qs with
    | nil => exact absurd hqs hq
    | cons q0 qtl =>
        cases hrc : r with
        | nil => exact absurd hrc hrne
        | cons e0 etl =>
            simp only [List.map_cons, List.zipWith_cons_cons, EFloat.nan_sub]
            have hval : EFloat.max ((EFloat.fin q0).mul EFloat.nan)
                ((EFloat.fin (q0 - 1)).mul EFloat.nan) = EFloat.nan := rfl
            rw [hval]
            exact List.mem_cons_self _ _
  -- flattened lengths agree
  have hlossflat : loss.flatten.length = ysq.length * qs.length := by
    rw [flatten_length_of_rows hlosslen, hloss_len]
  have hwflat : (List.replicate ysq.length
      (List.replicate qs.length (EFloat.fin 1))).flatten.length
      = ysq.length * qs.length := by
    rw [flatten_length_of_rows (fun r hr => by
      rw [List.eq_of_mem_replicate hr, List.length_replicate])]
    rw [List.length_replicate]
  have hwones : ∀ x ∈ (List.replicate ysq.length
      (List.replicate qs.length (EFloat.fin 1))).flatten, x = EFloat.fin 1 := by
    intro x hx
    obtain ⟨r, hr, hxr⟩ := List.mem_flatten.mp hx
    rw [List.eq_of_mem_replicate hr] at hxr
    exact List.eq_of_mem_replicate hxr
  -- protections pass
  have hprot : _metric_protections (.vec ysq) (.mat yhsq)
      (some (.vec (List.replicate ysq.length (EFloat.fin 1)))) = .ok () := by
    simp only [_metric_protections, Arr.flatten, Arr.shape,
      listSum_replicate_one, List.length_replicate]
    rw [lt_zero_fin_pos hpos]
    simp
  -- shapes agree
  have hshape : (Arr.mat (List.replicate ysq.length
      (List.replicate qs.length (EFloat.fin 1)))).shape = (Arr.mat loss).shape := by
    simp only [Arr.shape, List.length_replicate, hloss_len]
    have h1 : ((List.replicate ysq.length
        (List.replicate qs.length (EFloat.fin 1))).headD []).length = qs.length :=
      headD_length_of_rows
        (List.ne_nil_of_length_pos (by rw [List.length_replicate]; exact hn))
        (fun r hr => by rw [List.eq_of_mem_replicate hr, List.length_replicate])
    have h2 : (loss.headD []).length = qs.length :=
      headD_length_of_rows
        (List.ne_nil_of_length_pos (by rw [hloss_len]; exact hn)) hlosslen
    rw [h1, h2]
  -- assemble
  simp only [mqloss, Option.getD_none, List.map_replicate, hprot]
  show Arr.npAverage (.mat loss)
    (some (.mat (List.replicate ysq.length
      (List.replicate qs.length (EFloat.fin 1))))) none = .ok (.scl .nan)
  show (if (Arr.mat (List.replicate ysq.length
      (List.replicate qs.length (EFloat.fin 1)))).shape = (Arr.mat loss).shape then
      (avg1 loss.flatten (List.replicate ysq.length
        (List.replicate qs.length (EFloat.fin 1))).flatten).map Arr.scl
    else .error .typeError) = .ok (.scl .nan)
  rw [if_pos hshape]
  have hNne : ((ysq.length * qs.length : Nat) : ℚ) ≠ 0 := by
    exact_mod_cast (Nat.mul_pos hn hnq).ne'
  have hsum : listSum (List.replicate ysq.length
      (List.replicate qs.length (EFloat.fin 1))).flatten
      = .fin ((ysq.length * qs.length : Nat) : ℚ) :=
    listSum_flatten_replicate_ones _ _
  simp only [avg1, hsum]
  have hbeq : (EFloat.fin ((ysq.length * qs.length : Nat) : ℚ)).beq (.fin 0) = false := by
    simp only [EFloat.beq]
    exact decide_eq_false hNne
  rw [hbeq]
  simp only [Bool.false_eq_true, if_false]
  rw [zipWith_mul_ones loss.flatten _ hwones (by rw [hlossflat, hwflat])]
  rw [listSum_of_nan_mem hinan, EFloat.nan_div]
  rfl

/-- C3 (amended): MAE, MSE, RMSE and quantile_loss exclude NaN
contributions from their average-reduction (the unweighted reductions
equal the plain mean over the non-NaN positions); MAPE and SMAPE instead
neutralize NaN contributions to 0 via safe division and keep them in the
count, so their aggregate is likewise never NaN (MAPE is a finite
nonnegative value, SMAPE a finite value in [0, 200]); but mqloss — and
scaled_crps, which delegates to it — propagates NaN: any NaN observation
makes the aggregate NaN even when other entries are well defined. -/
theorem nan_contribution_policy
    (ys yhs : List EFloat) (q : ℚ)
    (hlen : yhs.length = ys.length) (hne : ys ≠ [])
    (ysq : List EFloat) (yhsq : List (List EFloat)) (qs : List ℚ)
    (hnan : EFloat.nan ∈ ysq)
    (hlq : yhsq.length = ysq.length)
    (hrows : ∀ r ∈ yhsq, r.length = qs.length) (hq : qs ≠ []) :
    mae (.vec ys) (.vec yhs) none none
      = .ok (.scl (mean1 ((List.zipWith (fun a b => (a.sub b).abs) ys yhs).filter
          (fun x => !x.isNaN)))) ∧
    mse (.vec ys) (.vec yhs) none none
      = .ok (.scl (mean1 ((List.zipWith (fun a b => (a.sub b).mul (a.sub b)) ys yhs).filter
          (fun x => !x.isNaN)))) ∧
    quantile_loss (.vec ys) (.vec yhs) q none none
      = .ok (.scl (mean1 (((List.zipWith EFloat.sub ys yhs).map (pinballElt q)).filter
          (fun x => !x.isNaN)))) ∧
    (∃ m, 0 ≤ m ∧ mape (.vec ys) (.vec yhs) none none = .ok (.scl (.fin (100 * m)))) ∧
    (∃ s, 0 ≤ s ∧ s ≤ 200 ∧ smape (.vec ys) (.vec yhs) none none = .ok (.scl (.fin s))) ∧
    mqloss ysq yhsq qs none none = .ok (.scl .nan) := by
  refine ⟨?_, ?_, ?_, ?_, ?_, ?_⟩
  · have h0 : mae (.vec ys) (.vec yhs) none none = .ok (.scl (nanmean1
        (List.zipWith (fun a b => (a.sub b).abs) ys yhs))) := rfl
    rw [h0, nanmean1_eq_mean1_filter]
  · have h0 : mse (.vec ys) (.vec yhs) none none = .ok (.scl (nanmean1
        (List.zipWith (fun a b => (a.sub b).mul (a.sub b)) ys yhs))) := rfl
    rw [h0, nanmean1_eq_mean1_filter]
  · have h0 : quantile_loss (.vec ys) (.vec yhs) q none none = .ok (.scl (nanmean1
        ((List.zipWith EFloat.sub ys yhs).map (pinballElt q)))) := rfl
    rw [h0, nanmean1_eq_mean1_filter]
  · have hvals : ∀ x ∈ List.zipWith mapeElt ys yhs, ∃ p, x = .fin p ∧ 0 ≤ p := by
      intro x hx
      obtain ⟨a, b, _, _, rfl⟩ := mem_of_mem_zipWith _ _ _ _ hx
      exact mapeElt_fin_nonneg a b
    have hLne : List.zipWith mapeElt ys yhs ≠ [] := by
      apply List.ne_nil_of_length_pos
      rw [List.length_zipWith, hlen, min_self]
      exact List.length_pos.mpr hne
    obtain ⟨m, hm, hm0⟩ := mean1_fin_nonneg hvals hLne
    refine ⟨m, hm0, ?_⟩
    rw [mape_vec_eval, hm]
    rfl
  · have hvals : ∀ x ∈ List.zipWith smapeElt ys yhs,
        ∃ p, x = .fin p ∧ 0 ≤ p ∧ p ≤ 1 := by
      intro x hx
      obtain ⟨a, b, _, _, rfl⟩ := mem_of_mem_zipWith _ _ _ _ hx
      exact smapeElt_bound a b
    have hLne : List.zipWith smapeElt ys yhs ≠ [] := by
      apply List.ne_nil_of_length_pos
      rw [List.length_zipWith, hlen, min_self]
      exact List.length_pos.mpr hne
    obtain ⟨s, hs, hs0, hs1⟩ := mean1_bound hvals hLne
    exact ⟨200 * s, by positivity, by linarith, smape_vec_eval ys yhs s hs hs1⟩
  · exact mqloss_nan_eval ysq yhsq qs hnan hlq hrows hq

/-- C3 witness: on y = [NaN, 1] against a forecast of ones, mae excludes
the NaN position while mqloss returns a NaN aggregate. -/
theorem nan_contribution_policy_witness :
    mae (.vec [.nan, .fin 1]) (.vec [.fin 1, .fin 1]) none none
      = .ok (.scl (mean1 ((List.zipWith (fun a b => (a.sub b).abs)
          [EFloat.nan, .fin 1] [.fin 1, .fin 1]).filter (fun x => !x.isNaN)))) ∧
    mqloss [.nan, .fin 1] [[.fin 1], [.fin 1]] [1/2] none none = .ok (.scl .nan) := by
  have h := nan_contribution_policy [.nan, .fin 1] [.fin 1, .fin 1] (1/2)
    (by norm_num) (by simp) [.nan, .fin 1] [[.fin 1], [.fin 1]] [1/2]
    (List.mem_cons_self _ _) (by norm_num)
    (by
      intro r hr
      rcases List.mem_cons.mp hr with h1 | h1
      · rw [h1]; rfl
      · rw [List.eq_of_mem_singleton h1]; rfl)
    (by simp)
  exact ⟨h.1, h.2.2.2.2.2⟩

/-- C3 counterexample: the claim says a handful of NaN entries does not
make the mqloss aggregate NaN, but one NaN observation among well-defined
ones already yields a NaN aggregate (no exclusion happens in mqloss). -/
theorem mqloss_nan_counterexample :
    mqloss [.nan, .fin 1] [[.fin 1], [.fin 1]] [1/2] none none = .ok (.scl .nan) ∧
      EFloat.nan.isNaN = true := by
  constructor
  · norm_num
  · rfl

/-- C6 (amended): every element smape returns compares less-or-equal to
200 (a result violating the assert raises the AssertionError instead of
being returned); and when the weights are absent or all nonnegative (and
the shapes match), every returned element is moreover a finite value in
[0, 200].  With negative weights of positive sum, values below 0 can be
returned (see the counterexample), so the lower bound of the claim needs
the nonnegativity restriction. -/
theorem smape_range (y y_hat : Arr) (weights : Option Arr) (axis : Option Nat)
    (r : Arr) (hok : smape y y_hat weights axis = .ok r) :
    (∀ x ∈ r.flatten, x.le (.fin 200) = true) ∧
    (y.shape = y_hat.shape →
      (∀ wa, weights = some wa → ∀ x ∈ wa.flatten, ∃ p, x = .fin p ∧ 0 ≤ p) →
      ∀ x ∈ r.flatten, ∃ p, x = .fin p ∧ 0 ≤ p ∧ p ≤ 200) := by
  simp only [smape] at hok
  split at hok
  · exact Except.noConfusion hok
  · split at hok
    · exact Except.noConfusion hok
    · rename_i r' hna
      split at hok
      · rename_i hall
        cases hok
        constructor
        · intro x hx
          exact List.all_eq_true.mp hall x hx
        · intro hshape hw x hx
          have h1 := List.all_eq_true.mp hall x hx
          rw [Arr.flatten_map] at hx
          obtain ⟨x', hx', rfl⟩ := List.mem_map.mp hx
          have hbound := npAverage_nan_or_bound (smape_m_elem y y_hat hshape)
            hw hna x' hx'
          rcases hbound with hnan1 | ⟨p, hp1, hp0, hp1'⟩
          · subst hnan1
            exact Bool.noConfusion h1
          · subst hp1
            exact ⟨200 * p, rfl, by positivity, by linarith⟩
      · exact Except.noConfusion hok

/-- C6 witness: smape of y = [1] against y_hat = [0] with no weights
returns exactly 200, and the theorem certifies the assert bound there. -/
theorem smape_range_witness :
    smape (.vec [.fin 1]) (.vec [.fin 0]) none none = .ok (.scl (.fin 200)) ∧
      (EFloat.fin 200).le (.fin 200) = true := by
  have hok : smape (.vec [.fin 1]) (.vec [.fin 0]) none none
      = .ok (.scl (.fin 200)) := by norm_num
  exact ⟨hok, (smape_range _ _ none none _ hok).1 (.fin 200)
    (List.mem_singleton.mpr rfl)⟩

/-- C6 counterexample: weights [2, -1] pass validation (their sum is 1),
yet smape returns -200, outside the claimed range [0, 200]; the assert
only checks the upper bound. -/
theorem smape_out_of_range_counterexample :
    smape (.vec [.fin 0, .fin 1]) (.vec [.fin 0, .fin 0])
        (some (.vec [.fin 2, .fin (-1)])) none = .ok (.scl (.fin (-200))) ∧
      ¬((0 : ℚ) ≤ -200) := by
  constructor
  · norm_num
  · norm_num

/-- C7: for positive seasonality, mase is the weighted np.average of the
absolute error divided by the unweighted mean of the absolute seasonal
differences of y_train; a zero denominator produces plus or minus
infinity or NaN, returned normally (no exception is raised). -/
theorem mase_formula_and_zero_scale
    (ys yhs y_train : List EFloat) (s : Nat) (hs : 0 < s)
    (weights : Option Arr) (num : EFloat)
    (hnum : Arr.npAverage (Arr.bop (fun a b => (a.sub b).abs) (.vec ys) (.vec yhs))
      weights none = .ok (.scl num)) :
    mase (.vec ys) (.vec yhs) y_train s weights none
      = .ok (.scl (num.div (mean1 (List.zipWith (fun a b => (a.sub b).abs)
          (y_train.take (y_train.length - s)) (y_train.drop s))))) ∧
    (mean1 (List.zipWith (fun a b => (a.sub b).abs)
        (y_train.take (y_train.length - s)) (y_train.drop s)) = .fin 0 →
      ∃ x, mase (.vec ys) (.vec yhs) y_train s weights none = .ok (.scl x) ∧
        (x = .pinf ∨ x = .ninf ∨ x.isNaN = true)) := by
  have hsne : s ≠ 0 := Nat.pos_iff_ne_zero.mp hs
  have hmain : mase (.vec ys) (.vec yhs) y_train s weights none
      = .ok (.scl (num.div (mean1 (List.zipWith (fun a b => (a.sub b).abs)
          (y_train.take (y_train.length - s)) (y_train.drop s))))) := by
    simp only [mase, hsne, if_false, hnum]
    rfl
  refine ⟨hmain, ?_⟩
  intro hden
  refine ⟨num.div (.fin 0), ?_, EFloat.div_fin_zero_cases num⟩
  rw [hmain, hden]

/-- C7 witness: a constant training series makes the seasonal scale zero
and mase returns plus infinity without raising. -/
theorem mase_formula_and_zero_scale_witness :
    mase (.vec [.fin 3]) (.vec [.fin 1]) [.fin 5, .fin 5] 1 none none
      = .ok (.scl .pinf) := by
  have h := mase_formula_and_zero_scale [.fin 3] [.fin 1] [.fin 5, .fin 5] 1
    (by norm_num) none (.fin 2) (by norm_num)
  rw [h.1]
  norm_num

theorem listSum_zeros {l : List EFloat} (h : ∀ x ∈ l, x = .fin 0) :
    listSum l = .fin 0 := by
  induction l with
  | nil => rfl
  | cons x xs ih =>
      rw [listSum_cons, h x (List.mem_cons_self x xs),
        ih (fun y hy => h y (List.mem_cons_of_mem x hy)), EFloat.add_fin_zero_left]

/-- A perfect forecast makes every broadcast error row all zeros. -/
theorem perfect_err_rows (n_q : Nat) :
    ∀ (ys : List EFloat), (∀ x ∈ ys, ∃ p, x = .fin p) →
      List.zipWith (fun yi row => row.map (fun h => EFloat.sub yi h)) ys
          (ys.map (fun x => List.replicate n_q x))
        = List.replicate ys.length (List.replicate n_q (EFloat.fin 0)) := by
  intro ys
  induction ys with
  | nil => intro _; rfl
  | cons y tl ih =>
      intro hfin
      obtain ⟨p, hp⟩ := hfin y (List.mem_cons_self y tl)
      simp only [List.map_cons, List.zipWith_cons_cons, List.length_cons,
        List.replicate_succ]
      congr 1
      · rw [List.map_replicate, hp]
        have : (EFloat.fin p).sub (.fin p) = .fin 0 := by
          simp [EFloat.sub, EFloat.neg, EFloat.add]
        rw [this]
      · exact ih (fun x hx => hfin x (List.mem_cons_of_mem y hx))

/-- Pinball losses of an all-zero error row are all zero. -/
theorem zipWith_pinball_zeros :
    ∀ (qs : List ℚ), List.zipWith
        (fun q e => EFloat.max ((EFloat.fin q).mul e) ((EFloat.fin (q - 1)).mul e))
        qs (List.replicate qs.length (EFloat.fin 0))
      = List.replicate qs.length (EFloat.fin 0) := by
  intro qs
  induction qs with
  | nil => rfl
  | cons q tl ih =>
      simp only [List.length_cons, List.replicate_succ, List.zipWith_cons_cons]
      congr 1
      simp [EFloat.mul, EFloat.max]

/-- mqloss of a perfect multi-quantile forecast of a nonempty finite
series is exactly zero. -/
theorem mqloss_perfect (ys2 : List EFloat) (qs2 : List ℚ)
    (hfin : ∀ x ∈ ys2, ∃ p, x = EFloat.fin p) (hne : ys2 ≠ []) (hq2 : qs2 ≠ []) :
    mqloss ys2 (ys2.map (fun x => List.replicate qs2.length x)) qs2 none none
      = .ok (.scl (.fin 0)) := by
  have hn : 0 < ys2.length := List.length_pos.mpr hne
  have hnq : 0 < qs2.length := List.length_pos.mpr hq2
  have hpos : (0 : ℚ) < (ys2.length : ℚ) := by exact_mod_cast hn
  have hprot : _metric_protections (.vec ys2)
      (.mat (ys2.map (fun x => List.replicate qs2.length x)))
      (some (.vec (List.replicate ys2.length (EFloat.fin 1)))) = .ok () := by
    simp only [_metric_protections, Arr.flatten, Arr.shape,
      listSum_replicate_one, List.length_replicate]
    rw [lt_zero_fin_pos hpos]
    simp
  simp only [mqloss, Option.getD_none, List.map_replicate, hprot]
  rw [perfect_err_rows qs2.length ys2 hfin, List.map_replicate,
    zipWith_pinball_zeros]
  have hshape : (Arr.mat (List.replicate ys2.length
      (List.replicate qs2.length (EFloat.fin 1)))).shape
      = (Arr.mat (List.replicate ys2.length
        (List.replicate qs2.length (EFloat.fin 0)))).shape := by
    simp only [Arr.shape, List.length_replicate]
    have h1 : ((List.replicate ys2.length
        (List.replicate qs2.length (EFloat.fin 1))).headD []).length = qs2.length :=
      headD_length_of_rows
        (List.ne_nil_of_length_pos (by rw [List.length_replicate]; exact hn))
        (fun r hr => by rw [List.eq_of_mem_replicate hr, List.length_replicate])
    have h2 : ((List.replicate ys2.length
        (List.replicate qs2.length (EFloat.fin 0))).headD []).length = qs2.length :=
      headD_length_of_rows
        (List.ne_nil_of_length_pos (by rw [List.length_replicate]; exact hn))
        (fun r hr => by rw [List.eq_of_mem_replicate hr, List.length_replicate])
    rw [h1, h2]
  show (if (Arr.mat (List.replicate ys2.length
      (List.replicate qs2.length (EFloat.fin 1)))).shape
      = (Arr.mat (List.replicate ys2.length
        (List.replicate qs2.length (EFloat.fin 0)))).shape then
      (avg1 (List.replicate ys2.length
          (List.replicate qs2.length (EFloat.fin 0))).flatten
        (List.replicate ys2.length
          (List.replicate qs2.length (EFloat.fin 1))).flatten).map Arr.scl
    else .error .typeError) = .ok (.scl (.fin 0))
  rw [if_pos hshape]
  have hNne : ((ys2.length * qs2.length : Nat) : ℚ) ≠ 0 := by
    exact_mod_cast (Nat.mul_pos hn hnq).ne'
  have hsum := listSum_flatten_replicate_ones ys2.length qs2.length
  simp only [avg1, hsum]
  have hbeq : (EFloat.fin ((ys2.length * qs2.length : Nat) : ℚ)).beq (.fin 0)
      = false := by
    simp only [EFloat.beq]
    exact decide_eq_false hNne
  rw [hbeq]
  simp only [Bool.false_eq_true, if_false]
  have hzones : ∀ x ∈ (List.replicate ys2.length
      (List.replicate qs2.length (EFloat.fin 1))).flatten, x = EFloat.fin 1 := by
    intro x hx
    obtain ⟨r, hr, hxr⟩ := List.mem_flatten.mp hx
    rw [List.eq_of_mem_replicate hr] at hxr
    exact List.eq_of_mem_replicate hxr
  have hlen0 : (List.replicate ys2.length
      (List.replicate qs2.length (EFloat.fin 0))).flatten.length
      = ys2.length * qs2.length := by
    rw [flatten_length_of_rows (fun r hr => by
      rw [List.eq_of_mem_replicate hr, List.length_replicate])]
    rw [List.length_replicate]
  have hlen1 : (List.replicate ys2.length
      (List.replicate qs2.length (EFloat.fin 1))).flatten.length
      = ys2.length * qs2.length := by
    rw [flatten_length_of_rows (fun r hr => by
      rw [List.eq_of_mem_replicate hr, List.length_replicate])]
    rw [List.length_replicate]
  rw [zipWith_mul_ones _ _ hzones (by rw [hlen0, hlen1])]
  rw [listSum_zeros (fun x hx => by
    obtain ⟨r, hr, hxr⟩ := List.mem_flatten.mp hx
    rw [List.eq_of_mem_replicate hr] at hxr
    exact List.eq_of_mem_replicate hxr)]
  have hdiv : (EFloat.fin 0).div (.fin ((ys2.length * qs2.length : Nat) : ℚ))
      = .fin 0 := by
    simp only [EFloat.div, hNne, if_false]
    rw [zero_div]
  rw [hdiv]
  rfl

/-- C8: scaled_crps equals 2 times the mqloss result times the element
count of y divided by the sum of absolute observations plus machine
epsilon (elementwise on the mqloss result); and for a perfect
multi-quantile forecast of a nonempty finite series — every quantile
slice equal to y — the result is exactly 0 (for any y, zero or not,
since the epsilon keeps the denominator positive). -/
theorem scaled_crps_formula_and_perfect
    (y : List EFloat) (y_hat : List (List EFloat)) (qs : List ℚ)
    (weights : Option (List EFloat)) (axis : Option Nat) (L : Arr)
    (hok : mqloss y y_hat qs weights axis = .ok L)
    (ys2 : List EFloat) (qs2 : List ℚ)
    (hfin : ∀ x ∈ ys2, ∃ p, x = EFloat.fin p) (hne : ys2 ≠ []) (hq2 : qs2 ≠ []) :
    scaled_crps y y_hat qs weights axis
      = .ok (L.map (fun l =>
          (((EFloat.fin 2).mul l).mul (.fin (y.length : ℚ))).div
            ((listSum (y.map EFloat.abs)).add (.fin machineEps)))) ∧
    scaled_crps ys2 (ys2.map (fun x => List.replicate qs2.length x)) qs2 none none
      = .ok (.scl (.fin 0)) := by
  constructor
  · simp only [scaled_crps, hok]
  · have hperfect := mqloss_perfect ys2 qs2 hfin hne hq2
    simp only [scaled_crps, hperfect]
    have habs : ∀ x ∈ ys2.map EFloat.abs, ∃ p, x = .fin p ∧ 0 ≤ p := by
      intro x hx
      obtain ⟨a, ha, rfl⟩ := List.mem_map.mp hx
      obtain ⟨p, hp⟩ := hfin a ha
      exact ⟨|p|, by rw [hp]; rfl, abs_nonneg p⟩
    obtain ⟨A, hA, hA0⟩ := listSum_fin_nonneg habs
    rw [hA]
    have heps : (0 : ℚ) < machineEps := by norm_num [machineEps]
    have hpos : (0 : ℚ) < A + machineEps := by linarith
    simp only [Arr.map, EFloat.mul, EFloat.add, EFloat.div, ne_of_gt hpos]
    norm_num

/-- C8 witness: on y = [1] with the single median quantile and a perfect
forecast, mqloss is 0 and scaled_crps is 0. -/
theorem scaled_crps_formula_and_perfect_witness :
    scaled_crps [.fin 1] [[.fin 1]] [1/2] none none = .ok (.scl (.fin 0)) := by
  have h := scaled_crps_formula_and_perfect [.fin 1] [[.fin 1]] [1/2] none none
    (.scl (.fin 0)) (by norm_num) [.fin 1] [1/2]
    (fun x hx => ⟨1, by rw [List.eq_of_mem_singleton hx]⟩)
    (by simp) (by simp)
  exact h.2

theorem EFloat.le_nan_right (x : EFloat) : x.le .nan = false := by
  cases x <;> rfl

theorem EFloat.nan_le (x : EFloat) : EFloat.nan.le x = false := by
  cases x <;> rfl

theorem covElt_nan (lo hi : EFloat) : covElt lo .nan hi = .fin 0 := by
  simp only [covElt, EFloat.le_nan_right, EFloat.nan_le, Bool.false_and,
    Bool.false_eq_true, if_false]

theorem calElt_nan (hi : EFloat) : calElt .nan hi = .fin 0 := by
  simp only [calElt, EFloat.nan_le, Bool.false_eq_true, if_false]

theorem covElt_zero_or_one (lo yi hi : EFloat) :
    covElt lo yi hi = .fin 0 ∨ covElt lo yi hi = .fin 1 := by
  unfold covElt
  by_cases h : (lo.le yi && yi.le hi) = true
  · right; rw [if_pos h]
  · left; rw [if_neg h]

theorem calElt_zero_or_one (yi hi : EFloat) :
    calElt yi hi = .fin 0 ∨ calElt yi hi = .fin 1 := by
  unfold calElt
  by_cases h : yi.le hi = true
  · right; rw [if_pos h]
  · left; rw [if_neg h]

/-- The sum of a 0/1 indicator list counts its ones. -/
theorem listSum_indicator :
    ∀ (l : List EFloat), (∀ x ∈ l, x = .fin 0 ∨ x = .fin 1) →
      listSum l = .fin ((l.count (.fin 1) : ℚ)) := by
  intro l
  induction l with
  | nil => simp [listSum]
  | cons x xs ih =>
      intro h
      have hs := ih (fun y hy => h y (List.mem_cons_of_mem x hy))
      rcases h x (List.mem_cons_self x xs) with h1 | h1
      · rw [listSum_cons, h1, hs, EFloat.add_fin_zero_left, List.count_cons]
        have hb : (EFloat.fin 0 == EFloat.fin 1) = false := by decide
        rw [hb]
        simp
      · rw [listSum_cons, h1, hs, List.count_cons]
        have hb : (EFloat.fin 1 == EFloat.fin 1) = true := by decide
        rw [hb]
        simp only [if_true]
        show EFloat.fin (1 + (xs.count (.fin 1) : ℚ)) = _
        push_cast
        rw [add_comm]

/-- Each position of the coverage indicator worth one counts toward the
total and NaN positions count zero, so ones plus NaN positions never
exceed the length. -/
theorem count_ind_nan_bound :
    ∀ (ys : List EFloat) (ps : List (EFloat × EFloat)), ps.length = ys.length →
      (List.zipWith (fun yi p => covElt p.1 yi p.2) ys ps).count (.fin 1)
        + ys.countP (fun x => x.isNaN) ≤ ys.length := by
  intro ys
  induction ys with
  | nil => intro ps _; simp
  | cons y tl ih =>
      intro ps hlen
      cases ps with
      | nil => simp at hlen
      | cons p ptl =>
          have hih := ih ptl (by simpa using hlen)
          rw [List.zipWith_cons_cons, List.count_cons, List.countP_cons,
            List.length_cons]
          by_cases hnan : y.isNaN = true
          · have hcov : covElt p.1 y p.2 = .fin 0 := by
              cases y with
              | nan => exact covElt_nan p.1 p.2
              | fin q => simp [EFloat.isNaN] at hnan
              | pinf => simp [EFloat.isNaN] at hnan
              | ninf => simp [EFloat.isNaN] at hnan
            have hb : (covElt p.1 y p.2 == EFloat.fin 1) = false := by
              rw [hcov]
              decide
            rw [hb]
            simp only [Bool.false_eq_true, if_false, hnan, if_true]
            omega
          · simp only [hnan, Bool.false_eq_true, if_false]
            cases hone : (covElt p.1 y p.2 == EFloat.fin 1)
            · simp only [Bool.false_eq_true, if_false]
              omega
            · simp only [if_true]
              omega

/-- C9 (amended): for nonempty matching-shape arrays, coverage returns a
single finite scalar 100 times a mean in [0, 1] (so the result is in
[0, 100]) and calibration returns a finite scalar in [0, 1]; the empty
input returns NaN instead (see the counterexample), so nonemptiness is
required. -/
theorem coverage_calibration_bounds
    (ys los his : List EFloat)
    (hl1 : los.length = ys.length) (hl2 : his.length = ys.length)
    (hne : ys ≠ []) :
    (∃ c, coverage (.vec ys) (.vec los) (.vec his) = .fin (100 * c) ∧
      0 ≤ c ∧ c ≤ 1) ∧
    (∃ c, calibration (.vec ys) (.vec his) = .fin c ∧ 0 ≤ c ∧ c ≤ 1) := by
  constructor
  · have hvals : ∀ x ∈ List.zipWith (fun yi p => covElt p.1 yi p.2) ys
        (los.zip his), ∃ q, x = .fin q ∧ 0 ≤ q ∧ q ≤ 1 := by
      intro x hx
      obtain ⟨a, b, _, _, rfl⟩ := mem_of_mem_zipWith _ _ _ _ hx
      rcases covElt_zero_or_one b.1 a b.2 with h | h
      · exact ⟨0, h, le_refl 0, zero_le_one⟩
      · exact ⟨1, h, zero_le_one, le_refl 1⟩
    have hLne : List.zipWith (fun yi p => covElt p.1 yi p.2) ys
        (los.zip his) ≠ [] := by
      apply List.ne_nil_of_length_pos
      rw [List.length_zipWith, List.length_zip, hl1, hl2, min_self, min_self]
      exact List.length_pos.mpr hne
    obtain ⟨c, hc, hc0, hc1⟩ := mean1_bound hvals hLne
    refine ⟨c, ?_, hc0, hc1⟩
    have h0 : coverage (.vec ys) (.vec los) (.vec his)
        = (EFloat.fin 100).mul (mean1 (List.zipWith
          (fun yi p => covElt p.1 yi p.2) ys (los.zip his))) := rfl
    rw [h0, hc]
    rfl
  · have hvals : ∀ x ∈ List.zipWith calElt ys his,
        ∃ q, x = .fin q ∧ 0 ≤ q ∧ q ≤ 1 := by
      intro x hx
      obtain ⟨a, b, _, _, rfl⟩ := mem_of_mem_zipWith _ _ _ _ hx
      rcases calElt_zero_or_one a b with h | h
      · exact ⟨0, h, le_refl 0, zero_le_one⟩
      · exact ⟨1, h, zero_le_one, le_refl 1⟩
    have hLne : List.zipWith calElt ys his ≠ [] := by
      apply List.ne_nil_of_length_pos
      rw [List.length_zipWith, hl2, min_self]
      exact List.length_pos.mpr hne
    obtain ⟨c, hc, hc0, hc1⟩ := mean1_bound hvals hLne
    exact ⟨c, hc, hc0, hc1⟩

/-- C9 witness: one observation inside the interval gives coverage 100. -/
theorem coverage_calibration_bounds_witness :
    coverage (.vec [.fin 0]) (.vec [.fin 0]) (.vec [.fin 1]) = .fin 100 := by
  obtain ⟨c, hc, hc0, hc1⟩ := (coverage_calibration_bounds [.fin 0] [.fin 0]
    [.fin 1] rfl rfl (by simp)).1
  have hdirect : coverage (.vec [.fin 0]) (.vec [.fin 0]) (.vec [.fin 1])
      = .fin 100 := by norm_num
  rw [hc]
  have hcc := hdirect.symm.trans hc
  injection hcc with hq
  rw [← hq]

/-- C9 counterexample: on empty arrays the mean of the empty indicator is
NaN, so coverage returns NaN, which lies outside [0, 100] (it is not
even greater-or-equal to 0). -/
theorem coverage_empty_nan_counterexample :
    coverage (.vec []) (.vec []) (.vec []) = .nan ∧
      (EFloat.fin 0).le .nan = false := by
  constructor
  · norm_num
  · rfl

/-- C10: coverage and calibration do not exclude NaN positions: a NaN
observation makes both indicator comparisons false (indicator 0), the
mean divides by the full length including NaN positions, and the covered
count plus the NaN count never exceeds the length — so each NaN
observation lowers the result relative to an exclusion policy. -/
theorem coverage_counts_nan
    (ys los his : List EFloat)
    (hl1 : los.length = ys.length) (hl2 : his.length = ys.length)
    (hne : ys ≠ []) :
    (∀ lo hi : EFloat, covElt lo .nan hi = .fin 0 ∧ calElt .nan hi = .fin 0) ∧
    coverage (.vec ys) (.vec los) (.vec his)
      = .fin (100 * (((List.zipWith (fun yi p => covElt p.1 yi p.2) ys
          (los.zip his)).count (.fin 1) : ℚ) / (ys.length : ℚ))) ∧
    calibration (.vec ys) (.vec his)
      = .fin (((List.zipWith calElt ys his).count (.fin 1) : ℚ)
          / (ys.length : ℚ)) ∧
    (List.zipWith (fun yi p => covElt p.1 yi p.2) ys (los.zip his)).count (.fin 1)
        + ys.countP (fun x => x.isNaN) ≤ ys.length := by
  have hn0 : ((ys.length : ℚ)) ≠ 0 := by
    have := List.length_pos.mpr hne
    positivity
  refine ⟨fun lo hi => ⟨covElt_nan lo hi, calElt_nan hi⟩, ?_, ?_, ?_⟩
  · have h0 : coverage (.vec ys) (.vec los) (.vec his)
        = (EFloat.fin 100).mul (mean1 (List.zipWith
          (fun yi p => covElt p.1 yi p.2) ys (los.zip his))) := rfl
    have hind01 : ∀ x ∈ List.zipWith (fun yi p => covElt p.1 yi p.2) ys
        (los.zip his), x = .fin 0 ∨ x = .fin 1 := by
      intro x hx
      obtain ⟨a, b, _, _, rfl⟩ := mem_of_mem_zipWith _ _ _ _ hx
      exact covElt_zero_or_one b.1 a b.2
    have hlen : (List.zipWith (fun yi p => covElt p.1 yi p.2) ys
        (los.zip his)).length = ys.length := by
      rw [List.length_zipWith, List.length_zip, hl1, hl2, min_self, min_self]
    have hm : mean1 (List.zipWith (fun yi p => covElt p.1 yi p.2) ys
        (los.zip his)) = .fin (((List.zipWith (fun yi p => covElt p.1 yi p.2) ys
          (los.zip his)).count (.fin 1) : ℚ) / (ys.length : ℚ)) := by
      rw [mean1, listSum_indicator _ hind01, hlen]
      simp only [EFloat.div, hn0, if_false]
    rw [h0, hm]
    rfl
  · have h0 : calibration (.vec ys) (.vec his)
        = mean1 (List.zipWith calElt ys his) := rfl
    have hind01 : ∀ x ∈ List.zipWith calElt ys his,
        x = .fin 0 ∨ x = .fin 1 := by
      intro x hx
      obtain ⟨a, b, _, _, rfl⟩ := mem_of_mem_zipWith _ _ _ _ hx
      exact calElt_zero_or_one a b
    have hlen : (List.zipWith calElt ys his).length = ys.length := by
      rw [List.length_zipWith, hl2, min_self]
    rw [h0, mean1, listSum_indicator _ hind01, hlen]
    simp only [EFloat.div, hn0, if_false]
  · exact count_ind_nan_bound ys (los.zip his)
      (by rw [List.length_zip, hl1, hl2, min_self])

/-- C10 witness: with a NaN observation among two, coverage is 50: the
NaN position counts as not covered but stays in the denominator. -/
theorem coverage_counts_nan_witness :
    coverage (.vec [.nan, .fin 0]) (.vec [.fin 0, .fin 0])
      (.vec [.fin 1, .fin 1]) = .fin 50 := by
  have h := (coverage_counts_nan [.nan, .fin 0] [.fin 0, .fin 0]
    [.fin 1, .fin 1] rfl rfl (by simp)).2.1
  rw [h]
  norm_num
